import Mathlib

/-!
# Event collector: CSV export and merge engine

A shallow embedding of `src/main.go` (package `main` of the event collector)
and theorems about its header reconciliation, row projection, ingestion and
export pass.

Conventions of the embedding.

* A Go `map[string]V` is an association list read by first match (`GoMap`).
  Every list denotes a Go map; `GoMap.set` keeps at most one entry per key.
* `for k := range m` over a Go map visits every key once in an order the
  language leaves unspecified.  The order is an explicit argument, a `MapOrder`.
* A `[]string` or `[]map[...]` slice is a `List`; `nil` and the empty slice are
  both `[]`.
* The file system, `encoding/csv` and `path/filepath` are the environment of the
  program: files are byte strings by path, held as a `String` with one character
  per byte; the CSV reader, the record encoder and the buffering of the writer
  are arguments (`CsvCodec`); `filepath.Join` is modelled for slash-separated
  paths.
* `saveCSV` defers `writer.Flush` and `file.Close` to its return: a created file
  is truncated in the loop and gets the buffered bytes when the deferred calls
  run, last deferred first, each written at the offset of its own descriptor.
-/

namespace EventCollector

/-! ## Go maps -/

/-- A Go map with string keys, as an association list read by first match. -/
abbrev GoMap (V : Type) := List (String × V)

namespace GoMap

/-- The comma-ok read `v, ok := m[k]`. -/
def get? {V : Type} (m : GoMap V) (k : String) : Option V :=
  match m with
  | [] => none
  | (k', v) :: rest => if k' = k then some v else get? rest k

/-- The assignment `m[k] = v`: replaces the entry of `k`, or adds one. -/
def set {V : Type} (m : GoMap V) (k : String) (v : V) : GoMap V :=
  match m with
  | [] => [(k, v)]
  | (k', v') :: rest => if k' = k then (k, v) :: rest else (k', v') :: set rest k v

/-- Adds `k` to a list of distinct keys unless it is there. -/
def addKey (ks : List String) (k : String) : List String :=
  if k ∈ ks then ks else ks ++ [k]

/-- The keys of the map, each once. -/
def keys {V : Type} (m : GoMap V) : List String :=
  (m.map Prod.fst).foldl addKey []

/-- The builtin `len(m)`. -/
def len {V : Type} (m : GoMap V) : Nat := (keys m).length

end GoMap

/-- The order in which a `for ... range` loop visits the keys of a Go map: some
rearrangement of the keys, chosen by the runtime. -/
structure MapOrder where
  visit : List String → List String
  perm : ∀ ks, (visit ks).Perm ks

/-- The order that visits keys as they are listed. -/
def MapOrder.listed : MapOrder := ⟨fun ks => ks, fun ks => List.Perm.refl ks⟩

/-- The order that visits keys last to first. -/
def MapOrder.backwards : MapOrder := ⟨List.reverse, fun ks => List.reverse_perm ks⟩

/-- Strict order of strings by code point, the order of their UTF-8 bytes. -/
def charsLt : List Char → List Char → Bool
  | _, [] => false
  | [], _ :: _ => true
  | a :: as, b :: bs => a.toNat < b.toNat || (a.toNat == b.toNat && charsLt as bs)

/-- The order that visits keys in ascending order. -/
def MapOrder.ascending : MapOrder :=
  ⟨List.insertionSort (fun a b => charsLt a.data b.data = true),
    fun ks => List.perm_insertionSort _ ks⟩

/-! ## JSON values and their `%v` rendering -/

/-- A `float64` held as the shortest decimal that reads back to it, the form
`strconv` formats from: `digits` without leading or trailing zeros (none for
zero) and the position `dp` of the decimal point, value `0.d₁d₂… × 10^dp`. -/
structure Float64 where
  neg : Bool
  digits : List Nat
  dp : Int
deriving DecidableEq, Repr

/-- What `encoding/json` decodes into an `interface{}`. -/
inductive Value where
  | null
  | bool (b : Bool)
  | num (f : Float64)
  | str (s : String)
  | arr (items : List Value)
  | obj (fields : List (String × Value))

/-- An ingested event, `map[string]interface{}`. -/
abbrev Event := GoMap Value

/-- A row read back from a CSV file, `map[string]string`. -/
abbrev TextEvent := GoMap String

/-- One decimal digit as a character. -/
def digitChar (d : Nat) : Char := Char.ofNat (48 + d % 10)

/-- The decimal digits of a natural number, most significant first; `fuel`
bounds the number of digits. -/
def natDigits (fuel n : Nat) : List Nat :=
  match fuel with
  | 0 => []
  | fuel + 1 => if n < 10 then [n] else natDigits fuel (n / 10) ++ [n % 10]

/-- The `%d` rendering of a natural number. -/
def fmtNat (n : Nat) : String := String.mk ((natDigits (n + 1) n).map digitChar)

/-- The `%e` form with the shortest precision: `d.ddde±dd`. -/
def fmtE (f : Float64) : String :=
  let first := match f.digits with
    | [] => [digitChar 0]
    | d :: _ => [digitChar d]
  let frac := match f.digits with
    | _ :: d :: ds => '.' :: (d :: ds).map digitChar
    | _ => []
  let exp : Int := if f.digits = [] then 0 else f.dp - 1
  let expDigits := (fmtNat exp.natAbs).data
  let expDigits := if exp.natAbs < 10 then '0' :: expDigits else expDigits
  String.mk (first ++ frac ++ ['e', if exp < 0 then '-' else '+'] ++ expDigits)

/-- The `%f` form with as many decimals as the digits need. -/
def fmtF (f : Float64) : String :=
  let nd := f.digits.length
  let intPart :=
    if 0 < f.dp then
      (f.digits.take f.dp.toNat).map digitChar ++
        List.replicate (f.dp.toNat - nd) '0'
    else ['0']
  let fracPart :=
    if f.dp < (nd : Int) then
      '.' :: (List.replicate (0 - f.dp).toNat '0' ++
        (f.digits.drop f.dp.toNat).map digitChar)
    else []
  String.mk (intPart ++ fracPart)

/-- The rendering `strconv.FormatFloat(f, 'g', -1, 64)`, which `%v` uses for a
`float64`: the `%e` form when the exponent is below `-4` or at least `6`,
else the `%f` form. -/
def fmtFloat (f : Float64) : String :=
  let exp : Int := f.dp - 1
  let body := if exp < -4 ∨ exp ≥ 6 then fmtE f else fmtF f
  if f.neg then "-" ++ body else body

/-- Inserts a rendered map entry by ascending key, as `fmt` prints maps. -/
def insertByKey (kv : String × String) (l : List (String × String)) :
    List (String × String) :=
  match l with
  | [] => [kv]
  | x :: xs =>
    if charsLt kv.1.data x.1.data then kv :: x :: xs else x :: insertByKey kv xs

mutual
/-- The rendering `fmt.Sprintf("%v", value)` of a decoded JSON value. -/
def fmtV : Value → String
  | .null => "<nil>"
  | .bool b => if b then "true" else "false"
  | .num f => fmtFloat f
  | .str s => s
  | .arr items => "[" ++ " ".intercalate (fmtVs items) ++ "]"
  | .obj fields =>
    "map[" ++ " ".intercalate
      (((fmtFields fields).foldr insertByKey []).map
        (fun kv => kv.1 ++ ":" ++ kv.2)) ++ "]"
/-- Renders the elements of an array. -/
def fmtVs : List Value → List String
  | [] => []
  | v :: vs => fmtV v :: fmtVs vs
/-- Renders the entries of an object, shadowed entries left out. -/
def fmtFields : List (String × Value) → List (String × String)
  | [] => []
  | (k, v) :: rest => (k, fmtV v) :: (fmtFields rest).filter (fun kv => kv.1 ≠ k)
end

/-! ## Header discovery and reconciliation -/

/-- The function `getHeaders`: collects the field names of all events in the set
`headers`, then ranges over that set to build the slice it returns. -/
def getHeaders (o : MapOrder) (events : List Event) : List String :=
  let headers := events.foldl
    (fun headers event => (o.visit (GoMap.keys event)).foldl GoMap.addKey headers) []
  (o.visit headers).foldl (fun headerSlice header => headerSlice ++ [header]) []

/-- The function `contains`: linear search of a slice. -/
def contains (slice : List String) (item : String) : Bool :=
  match slice with
  | [] => false
  | a :: rest => if a = item then true else contains rest item

/-- The merge loop of `saveCSV`: every discovered header the running header lacks
is appended to it. -/
def mergeHeaders (existingHeaders headers : List String) : List String :=
  headers.foldl
    (fun existingHeaders header =>
      if !contains existingHeaders header then existingHeaders ++ [header]
      else existingHeaders)
    existingHeaders

/-- The reconciled header of an export: the merge of the file header with the
headers discovered in the batch. -/
def reconcile (o : MapOrder) (existingHeaders : List String) (events : List Event) :
    List String :=
  mergeHeaders existingHeaders (getHeaders o events)

/-! ## The environment: CSV codec, paths, files -/

/-- The services of `encoding/csv` the program uses: `Reader.ReadAll` on the
bytes of a file (`none` for a parse error), the bytes `Writer.Write` emits for
one record, and the buffering of the writer. -/
structure CsvCodec where
  readAll : String → Option (List (List String))
  encodeRecord : List String → String
  /-- How many of the bytes of the records written so far the `bufio.Writer`
  inside the writer has already handed to the file because its buffer was
  full, before any `Flush`. -/
  spill : List (List String) → Nat

/-- The bytes a writer has emitted once flushed. -/
def CsvCodec.encode (csv : CsvCodec) (records : List (List String)) : String :=
  String.join (records.map csv.encodeRecord)

/-- Splits a text at every occurrence of `sep`. -/
def splitChar (sep : Char) : List Char → List (List Char)
  | [] => [[]]
  | c :: cs =>
    match splitChar sep cs with
    | [] => [[]]
    | seg :: segs => if c = sep then [] :: seg :: segs else (c :: seg) :: segs

/-- The UTF-8 bytes of a character, one character per byte. -/
def utf8Bytes (c : Char) : List Char :=
  let v := c.toNat
  if v < 128 then [c]
  else if v < 2048 then [Char.ofNat (192 + v / 64), Char.ofNat (128 + v % 64)]
  else if v < 65536 then
    [Char.ofNat (224 + v / 4096), Char.ofNat (128 + v / 64 % 64), Char.ofNat (128 + v % 64)]
  else
    [Char.ofNat (240 + v / 262144), Char.ofNat (128 + v / 4096 % 64),
      Char.ofNat (128 + v / 64 % 64), Char.ofNat (128 + v % 64)]

/-- One byte met while decoding UTF-8: the state is the text decoded so far, the
code point under way and the number of bytes it still lacks. -/
def utf8Step (st : List Char × Nat × Nat) (b : Char) : List Char × Nat × Nat :=
  let v := b.toNat
  if st.2.2 = 0 then
    if v < 128 then (st.1 ++ [b], 0, 0)
    else if v < 224 then (st.1, v % 32, 1)
    else if v < 240 then (st.1, v % 16, 2)
    else (st.1, v % 8, 3)
  else if st.2.2 = 1 then (st.1 ++ [Char.ofNat (st.2.1 * 64 + v % 64)], 0, 0)
  else (st.1, st.2.1 * 64 + v % 64, st.2.2 - 1)

/-- The text of a cell held as UTF-8 bytes. -/
def utf8Text (bytes : List Char) : String :=
  String.mk (bytes.foldl utf8Step ([], 0, 0)).1

/-- A small codec to run the definitions on concrete files: fields in UTF-8
joined by commas, one record per line, blank lines skipped, no quoting, and a
buffer that holds every byte until the flush, as the 4096 bytes of a
`bufio.Writer` do for a small file. -/
def CsvCodec.plain : CsvCodec :=
  { readAll := fun bytes =>
      some (((splitChar '\n' bytes.data).filter (fun line => line ≠ [])).map
        (fun line => (splitChar ',' line).map utf8Text))
    encodeRecord := fun record =>
      String.mk (List.intercalate [',']
        (record.map (fun cell => cell.data.flatMap utf8Bytes)) ++ ['\n'])
    spill := fun _ => 0 }

/-- One element of a path met by `filepath.Clean`; `kept` holds the elements kept
so far, last first. -/
def cleanStep (rooted : Bool) (kept : List (List Char)) (elem : List Char) :
    List (List Char) :=
  if elem = [] ∨ elem = ['.'] then kept
  else if elem = ['.', '.'] then
    match kept with
    | top :: rest => if top = ['.', '.'] then elem :: kept else rest
    | [] => if rooted then [] else [elem]
  else elem :: kept

/-- The function `filepath.Clean` for slash-separated paths. -/
def filepathClean (path : String) : String :=
  let rooted : Bool := path.data.head? = some '/'
  let elems := ((splitChar '/' path.data).foldl (cleanStep rooted) []).reverse
  let body := String.mk (List.intercalate ['/'] elems)
  if rooted then "/" ++ body else if elems = [] then "." else body

/-- The function `filepath.Join` of two elements. -/
def filepathJoin (dir name : String) : String :=
  if dir ≠ "" then filepathClean (dir ++ "/" ++ name)
  else if name ≠ "" then filepathClean name
  else ""

/-- The bytes of a file after `data` was written over `old` from the offset `off`
on; the gap is filled with zero bytes when the file ends before `off`. -/
def overwrite (old : List Char) (off : Nat) (data : List Char) : List Char :=
  old.take off ++ List.replicate (off - old.length) (Char.ofNat 0) ++ data ++
    old.drop (off + data.length)

/-- The state of the file system and the failures it will answer with. -/
structure FileSystem where
  /-- The bytes of the regular file at a path, if there is one, one character
  per byte. -/
  files : String → Option String
  /-- The directories that exist. -/
  dirs : String → Bool
  /-- Paths on which `os.MkdirAll` fails. -/
  denyMkdir : String → Bool
  /-- Paths on which `os.Open` fails although a file is there. -/
  denyOpen : String → Bool
  /-- Paths on which `os.Create` fails. -/
  denyCreate : String → Bool
  /-- Paths on which writing fails after the file was created. -/
  denyWrite : String → Bool

namespace FileSystem

/-- The call `os.MkdirAll(dir, os.ModePerm)`. -/
def mkdirAll (fs : FileSystem) (dir : String) : Option FileSystem :=
  if fs.denyMkdir dir then none
  else some { fs with dirs := fun d => if d = dir then true else fs.dirs d }

/-- The call `os.Open(path)` followed by reading the file. -/
def openFile (fs : FileSystem) (path : String) : Option String :=
  if fs.denyOpen path then none else fs.files path

/-- Replaces the bytes of the file at `path`. -/
def put (fs : FileSystem) (path : String) (bytes : String) : FileSystem :=
  { fs with files := fun p => if p = path then some bytes else fs.files p }

/-- The call `os.Create(path)`: the file is created or truncated. -/
def create (fs : FileSystem) (path : String) : Option FileSystem :=
  if fs.denyCreate path then none else some (fs.put path "")

/-- A `Write` of `data` on the open file at `path` by a descriptor whose offset
is `off`: the bytes go over those of the file from `off` on.  Nothing happens
for no bytes or when writing fails. -/
def writeAt (fs : FileSystem) (path : String) (off : Nat) (data : List Char) :
    FileSystem :=
  if data = [] ∨ fs.denyWrite path = true then fs
  else fs.put path (String.mk (overwrite ((fs.files path).getD "").data off data))

end FileSystem

/-- A writer whose `Flush` and whose file's `Close` are deferred: the path of its
file, the offset of its file descriptor and the bytes still in its buffer. -/
structure OpenWriter where
  path : String
  offset : Nat
  buffered : List Char
deriving DecidableEq, Repr

/-- The deferred calls of `saveCSV` run at its return, the last deferred first:
every writer is flushed to its file. -/
def FileSystem.runDeferred (fs : FileSystem) (deferred : List OpenWriter) : FileSystem :=
  deferred.foldl (fun fs w => fs.writeAt w.path w.offset w.buffered) fs

/-- A file system with no file and no directory, on which nothing fails. -/
def FileSystem.blank : FileSystem :=
  { files := fun _ => none, dirs := fun _ => false, denyMkdir := fun _ => false,
    denyOpen := fun _ => false, denyCreate := fun _ => false,
    denyWrite := fun _ => false }

/-! ## Reading the existing file -/

/-- The inner loop of `readExistingCSV`: the event of one record, cell `i` stored
under `headers[i]` when there is such a header. -/
def recordToEvent (headers record : List String) : TextEvent :=
  record.enum.foldl
    (fun event iv =>
      match headers.get? iv.1 with
      | some header => GoMap.set event header iv.2
      | none => event)
    []

/-- The function `readExistingCSV`: the rows of the file as events, and its
header; nothing when the file cannot be opened, does not parse or has no
record. -/
def readExistingCSV (csv : CsvCodec) (fs : FileSystem) (filePath : String) :
    List TextEvent × List String :=
  match fs.openFile filePath with
  | none => ([], [])
  | some bytes =>
    match csv.readAll bytes with
    | none => ([], [])
    | some [] => ([], [])
    | some (headers :: rest) => (rest.map (recordToEvent headers), headers)

/-! ## Writing rows -/

/-- A `csv.Writer`, as the records handed to it so far. -/
abbrev CsvWriter := List (List String)

/-- The `event interface{}` argument of `writeEvent`, by dynamic type. -/
inductive AnyEvent where
  | fresh (e : Event)
  | stored (e : TextEvent)

/-- The `events interface{}` argument of `writeEvents`, by dynamic type. -/
inductive AnyEvents where
  | fresh (evts : List Event)
  | stored (evts : List TextEvent)

/-- The cell of a decoded event under one header: the `%v` rendering of the
field, or the zero value `""` of a fresh row when the event has no such field. -/
def freshCell (e : Event) (header : String) : String :=
  match GoMap.get? e header with
  | some value => fmtV value
  | none => ""

/-- The cell of an event read from a file under one header: the field, or `""`
when the event has no such field. -/
def storedCell (e : TextEvent) (header : String) : String :=
  match GoMap.get? e header with
  | some value => value
  | none => ""

/-- The row `writeEvent` builds: one cell per header, by the dynamic type of the
event. -/
def eventRow (event : AnyEvent) (headers : List String) : List String :=
  match event with
  | .fresh e => headers.map (freshCell e)
  | .stored e => headers.map (storedCell e)

/-- The function `writeEvent`: builds the row and writes it. -/
def writeEvent (writer : CsvWriter) (event : AnyEvent) (headers : List String) :
    CsvWriter :=
  writer ++ [eventRow event headers]

/-- The function `writeEvents`: writes every event in order. -/
def writeEvents (writer : CsvWriter) (events : AnyEvents) (headers : List String) :
    CsvWriter :=
  match events with
  | .fresh evts => evts.foldl (fun w event => writeEvent w (.fresh event) headers) writer
  | .stored evts => evts.foldl (fun w event => writeEvent w (.stored event) headers) writer

/-! ## The event store and ingestion -/

/-- The global `eventsByType`: the pending events of every type seen. -/
abbrev Store := GoMap (List Event)

/-- The read `eventsByType[eventType]`: `nil` for a type never seen. -/
def pending (eventsByType : Store) (eventType : String) : List Event :=
  (GoMap.get? eventsByType eventType).getD []

/-- The lines the program logs. -/
inductive LogLine where
  | eventWithoutType (event : Event)
  | noEvents
  | mkdirError
  | createError (eventType : String)
  | noFilesUpdated
  | updated (files : List String)

/-- An HTTP response: status code and body. -/
structure Response where
  status : Nat
  body : String
deriving DecidableEq, Repr

/-- The type assertion `event["eventType"].(string)`: the type name when the
field is there and holds a string. -/
def eventTypeOf (event : Event) : Option String :=
  match GoMap.get? event "eventType" with
  | some (.str eventType) => some eventType
  | _ => none

/-- The body of the ingestion loop of `handleEvents` for one event. -/
def ingest (acc : Store × List LogLine) (event : Event) : Store × List LogLine :=
  match eventTypeOf event with
  | some eventType =>
    (GoMap.set acc.1 eventType (pending acc.1 eventType ++ [event]), acc.2)
  | none => (acc.1, acc.2 ++ [.eventWithoutType event])

/-- The function `handleEvents`, given the request method and what decoding the
body as `[]map[string]interface{}` gave. -/
def handleEvents (eventsByType : Store) (method : String)
    (decoded : Except String (List Event)) : Store × Response × List LogLine :=
  if method ≠ "POST" then
    (eventsByType, ⟨405, "Method not allowed\n"⟩, [])
  else
    match decoded with
    | .error err => (eventsByType, ⟨400, err ++ "\n"⟩, [])
    | .ok newEvents =>
      let acc := newEvents.foldl ingest (eventsByType, [])
      (acc.1, ⟨201, "Received " ++ fmtNat newEvents.length ++ " events"⟩, acc.2)

/-! ## The export pass -/

/-- The calls the export makes on the file system. -/
inductive IOCall where
  | mkdirAll (dir : String)
  | openFile (path : String)
  | create (path : String)
  | write (path : String) (records : List (List String))
deriving DecidableEq, Repr

/-- The output directory of `saveCSV`. -/
def csvDir : String := "csv_exports"

/-- The name `fmt.Sprintf("%s.csv", eventType)` of the export file of a type. -/
def fileNameOf (eventType : String) : String := eventType ++ ".csv"

/-- The path `filepath.Join(csvDir, fileName)` of the export file of a type. -/
def filePathOf (eventType : String) : String := filepathJoin csvDir (fileNameOf eventType)

/-- The records `saveCSV` hands to the writer of one file: the reconciled
header, the existing rows, the new rows. -/
def exportRecords (existingHeaders : List String) (existingEvents : List TextEvent)
    (events : List Event) : CsvWriter :=
  let writer : CsvWriter := [existingHeaders]
  let writer := writeEvents writer (.stored existingEvents) existingHeaders
  writeEvents writer (.fresh events) existingHeaders

/-- What `saveCSV` has done so far in a pass; `deferred` holds the writers whose
flush is deferred, the last deferred first. -/
structure PassState where
  eventsByType : Store
  fs : FileSystem
  updatedFiles : List String
  log : List LogLine
  trace : List IOCall
  deferred : List OpenWriter

/-- The body of the loop of `saveCSV` for one event type.  `os.Create` truncates
the file; the records go to the buffer of the writer, which hands the file the
bytes that overflow it (`spill`) and keeps the rest for the deferred flush. -/
def exportType (o : MapOrder) (csv : CsvCodec) (st : PassState) (eventType : String) :
    PassState :=
  let events := pending st.eventsByType eventType
  if events.length = 0 then st
  else
    let fileName := fileNameOf eventType
    let filePath := filePathOf eventType
    let headers := getHeaders o events
    let existing := readExistingCSV csv st.fs filePath
    let existingHeaders := mergeHeaders existing.2 headers
    match st.fs.create filePath with
    | none =>
      { st with
        log := st.log ++ [.createError eventType]
        trace := st.trace ++ [.openFile filePath, .create filePath] }
    | some fs =>
      let writer := exportRecords existingHeaders existing.1 events
      let early := (csv.encode writer).data.take (csv.spill writer)
      { eventsByType := GoMap.set st.eventsByType eventType []
        fs := fs.writeAt filePath 0 early
        updatedFiles := st.updatedFiles ++ [fileName]
        log := st.log
        trace := st.trace ++ [.openFile filePath, .create filePath, .write filePath writer]
        deferred :=
          { path := filePath, offset := early.length,
            buffered := (csv.encode writer).data.drop (csv.spill writer) } :: st.deferred }

/-- The function `saveCSV`, on the store and file system it finds; the deferred
flushes run when it returns. -/
def saveCSV (o : MapOrder) (csv : CsvCodec) (eventsByType : Store) (fs : FileSystem) :
    PassState :=
  if GoMap.len eventsByType = 0 then
    { eventsByType := eventsByType, fs := fs, updatedFiles := [], log := [.noEvents],
      trace := [], deferred := [] }
  else
    match fs.mkdirAll csvDir with
    | none =>
      { eventsByType := eventsByType, fs := fs, updatedFiles := [], log := [.mkdirError],
        trace := [.mkdirAll csvDir], deferred := [] }
    | some fs =>
      let st := (o.visit (GoMap.keys eventsByType)).foldl (exportType o csv)
        { eventsByType := eventsByType, fs := fs, updatedFiles := [], log := [],
          trace := [.mkdirAll csvDir], deferred := [] }
      { st with
        fs := st.fs.runDeferred st.deferred
        deferred := []
        log := st.log ++
          [if st.updatedFiles.length = 0 then .noFilesUpdated else .updated st.updatedFiles] }

/-! ## Discovery order and runs of the program -/

/-- The set `headers` of `getHeaders` once every event was scanned, its names in
the order in which the scan first met them. -/
def headerSet (o : MapOrder) (events : List Event) : List String :=
  events.foldl
    (fun headers event => (o.visit (GoMap.keys event)).foldl GoMap.addKey headers) []

/-- One call on the running program: a request to `/events` with its method and
what decoding its body gave, or the command `save-csv` with the iteration order
of the pass and the codec and file system it finds. -/
inductive Op where
  | request (method : String) (decoded : Except String (List Event))
  | saveCsv (o : MapOrder) (csv : CsvCodec) (fs : FileSystem)

/-- The store after one call. -/
def applyOp (eventsByType : Store) (op : Op) : Store :=
  match op with
  | .request method decoded => (handleEvents eventsByType method decoded).1
  | .saveCsv o csv fs => (saveCSV o csv eventsByType fs).eventsByType

/-- The store after a sequence of calls on the program started with the empty
store of `main`. -/
def runOps (ops : List Op) : Store := ops.foldl applyOp []

/-- Every pending event of a type names that type in its field `eventType`. -/
def typedStore (eventsByType : Store) : Prop :=
  ∀ t, ∀ e ∈ pending eventsByType t, eventTypeOf e = some t

/-- The records the loop body of `saveCSV` hands to the writer of the file of a
type: the header reconciled with the file it reads, the rows of that file, the
rows of the pending events. -/
def recordsOf (o : MapOrder) (csv : CsvCodec) (fs : FileSystem) (eventType : String)
    (events : List Event) : CsvWriter :=
  exportRecords
    (reconcile o (readExistingCSV csv fs (filePathOf eventType)).2 events)
    (readExistingCSV csv fs (filePathOf eventType)).1 events

/-! ## Sample data for the checks -/

/-- A file of two rows under the header `id,a`, for the checks below. -/
def sampleFs : FileSystem :=
  FileSystem.put FileSystem.blank "csv_exports/click.csv" "id,a\n1,x\n2,y\n"


/-- A pass about to export one pending event of type `click` over `sampleFs`. -/
def samplePass : PassState :=
  { eventsByType := [("click", [[("eventType", Value.str "click"), ("a", Value.str "z")]])]
    fs := sampleFs, updatedFiles := [], log := [], trace := [], deferred := [] }

/-- The JSON number of one decimal digit. -/
def Value.digit (d : Nat) : Value := .num ⟨false, [d], 1⟩

/-- The event `{"eventType":"click","a":1,"b":2}`. -/
def clickAB : Event :=
  [("eventType", .str "click"), ("a", Value.digit 1), ("b", Value.digit 2)]

/-- The event `{"eventType":"click","b":3,"c":4}`. -/
def clickBC : Event :=
  [("eventType", .str "click"), ("b", Value.digit 3), ("c", Value.digit 4)]

/-- The store after the two `click` events were ingested into an empty store. -/
def clickStore : Store := (handleEvents [] "POST" (.ok [clickAB, clickBC])).1

/-- The event `{"eventType":"purchase","sku":"k1"}`. -/
def purchaseK1 : Event := [("eventType", .str "purchase"), ("sku", .str "k1")]

/-- A store with pending events of the types `click` and `purchase`. -/
def shopStore : Store := [("click", [clickAB, clickBC]), ("purchase", [purchaseK1])]

/-- An empty file system on which the export file of `click` cannot be created. -/
def clickRefusedFs : FileSystem :=
  { FileSystem.blank with denyCreate := fun p => p = "csv_exports/click.csv" }

/-- An empty file system on which every write to the export file of `click`
fails. -/
def clickUnwritableFs : FileSystem :=
  { FileSystem.blank with denyWrite := fun p => p = "csv_exports/click.csv" }

/-- A batch of two events of one field each: `a` is met first, then `b`. -/
def batchAThenB : List Event := [[("a", Value.digit 1)], [("b", Value.digit 2)]]

/-- A store in which the types `a` and `./a` both have a pending event. -/
def aliasBothStore : Store :=
  [("a", [[("eventType", Value.str "a")]]), ("./a", [[("eventType", Value.str "./a")]])]

/-- The `%v` rendering on sample values: integers, the switch to the exponent
form at `1e+06`, fractions, `nil`, arrays and maps. -/
theorem fmtV_samples :
    fmtV (.num ⟨false, [1], 1⟩) = "1" ∧
      fmtV (.num ⟨false, [1], 7⟩) = "1e+06" ∧
      fmtV (.num ⟨true, [1, 5], 1⟩) = "-1.5" ∧
      fmtV (.num ⟨false, [1, 2, 3], -2⟩) = "0.00123" ∧
      fmtV (.num ⟨false, [1, 2, 3], 5⟩) = "12300" ∧
      fmtV (.num ⟨false, [], 0⟩) = "0" ∧
      fmtV (.num ⟨false, [1, 2, 3, 4, 5, 6, 7, 8, 9], 9⟩) = "1.23456789e+08" ∧
      fmtV (.num ⟨false, [1], -6⟩) = "1e-07" ∧
      fmtV (.arr [.num ⟨false, [1], 1⟩, .str "a", .null, .bool true]) = "[1 a <nil> true]" ∧
      fmtV (.obj [("b", .num ⟨false, [1], 1⟩), ("a", .str "x")]) = "map[a:x b:1]" ∧
      fmtNat 201 = "201" := by
  decide

/-- The export path on sample type names: `filepath.Join` cleans the path. -/
theorem filePathOf_samples :
    filePathOf "click" = "csv_exports/click.csv" ∧
      filePathOf "./a" = "csv_exports/a.csv" ∧
      filePathOf "a//b" = "csv_exports/a/b.csv" ∧
      filePathOf "../x" = "x.csv" ∧
      filePathOf "" = "csv_exports/.csv" ∧
      filepathClean "/../a//b/./c/.." = "/a/b" ∧
      filepathClean "" = "." := by
  decide

/-! ## Lemmas on Go maps -/

theorem GoMap.mem_addKey (ks : List String) (k x : String) :
    x ∈ GoMap.addKey ks k ↔ x ∈ ks ∨ x = k := by
  unfold GoMap.addKey
  split
  · constructor
    · intro h; exact Or.inl h
    · rintro (h | h)
      · exact h
      · subst h; assumption
  · simp

theorem GoMap.mem_foldl_addKey (l ks : List String) (x : String) :
    x ∈ l.foldl GoMap.addKey ks ↔ x ∈ ks ∨ x ∈ l := by
  induction l generalizing ks with
  | nil => simp
  | cons a l ih =>
    rw [List.foldl_cons, ih, GoMap.mem_addKey]
    simp only [List.mem_cons]
    tauto

theorem GoMap.nodup_addKey (ks : List String) (k : String) (h : ks.Nodup) :
    (GoMap.addKey ks k).Nodup := by
  unfold GoMap.addKey
  split
  · exact h
  · rename_i hk
    rw [List.nodup_append]
    refine ⟨h, List.nodup_singleton k, ?_⟩
    intro a ha hb
    simp only [List.mem_singleton] at hb
    subst hb
    exact hk ha

theorem GoMap.nodup_foldl_addKey (l ks : List String) (h : ks.Nodup) :
    (l.foldl GoMap.addKey ks).Nodup := by
  induction l generalizing ks with
  | nil => exact h
  | cons a l ih => exact ih _ (GoMap.nodup_addKey ks a h)

theorem GoMap.get?_isSome_iff {V : Type} (m : GoMap V) (k : String) :
    (GoMap.get? m k).isSome ↔ k ∈ m.map Prod.fst := by
  induction m with
  | nil => simp [GoMap.get?]
  | cons kv m ih =>
    obtain ⟨k', v⟩ := kv
    unfold GoMap.get?
    by_cases hk : k' = k
    · simp [hk]
    · have hk2 : ¬ k = k' := fun h => hk h.symm
      simp [hk, hk2, ih]

theorem GoMap.mem_keys {V : Type} (m : GoMap V) (k : String) :
    k ∈ GoMap.keys m ↔ (GoMap.get? m k).isSome := by
  unfold GoMap.keys
  rw [GoMap.mem_foldl_addKey, GoMap.get?_isSome_iff]
  simp

theorem GoMap.nodup_keys {V : Type} (m : GoMap V) : (GoMap.keys m).Nodup :=
  GoMap.nodup_foldl_addKey _ _ List.nodup_nil

theorem MapOrder.mem_visit (o : MapOrder) (ks : List String) (x : String) :
    x ∈ o.visit ks ↔ x ∈ ks :=
  (o.perm ks).mem_iff

theorem MapOrder.visit_nil (o : MapOrder) : o.visit [] = [] :=
  List.Perm.eq_nil (o.perm [])

/-! ## Lemmas on header discovery and reconciliation -/

theorem foldl_append_singleton (l acc : List String) :
    l.foldl (fun headerSlice header => headerSlice ++ [header]) acc = acc ++ l := by
  induction l generalizing acc with
  | nil => simp
  | cons a l ih => simp [List.foldl_cons, ih]

/-- The set `headers` that `getHeaders` fills. -/
theorem mem_headerSet (o : MapOrder) (events : List Event) (acc : List String)
    (x : String) :
    x ∈ events.foldl
        (fun headers event => (o.visit (GoMap.keys event)).foldl GoMap.addKey headers) acc
      ↔ x ∈ acc ∨ ∃ e ∈ events, (GoMap.get? e x).isSome := by
  induction events generalizing acc with
  | nil => simp
  | cons e events ih =>
    rw [List.foldl_cons, ih, GoMap.mem_foldl_addKey, MapOrder.mem_visit, GoMap.mem_keys]
    simp only [List.mem_cons, exists_eq_or_imp]
    tauto

theorem nodup_headerSet (o : MapOrder) (events : List Event) (acc : List String)
    (h : acc.Nodup) :
    (events.foldl
      (fun headers event => (o.visit (GoMap.keys event)).foldl GoMap.addKey headers)
      acc).Nodup := by
  induction events generalizing acc with
  | nil => exact h
  | cons e events ih => exact ih _ (GoMap.nodup_foldl_addKey _ _ h)

theorem mem_getHeaders (o : MapOrder) (events : List Event) (x : String) :
    x ∈ getHeaders o events ↔ ∃ e ∈ events, (GoMap.get? e x).isSome := by
  unfold getHeaders
  simp only [foldl_append_singleton, List.nil_append, MapOrder.mem_visit, mem_headerSet]
  simp

theorem nodup_getHeaders (o : MapOrder) (events : List Event) :
    (getHeaders o events).Nodup := by
  unfold getHeaders
  simp only [foldl_append_singleton, List.nil_append]
  exact (o.perm _).nodup_iff.mpr (nodup_headerSet o events [] List.nodup_nil)

theorem getHeaders_nil (o : MapOrder) : getHeaders o [] = [] := by
  simp [getHeaders, MapOrder.visit_nil]

theorem contains_iff (slice : List String) (item : String) :
    contains slice item = true ↔ item ∈ slice := by
  induction slice with
  | nil => simp [contains]
  | cons a rest ih =>
    unfold contains
    by_cases h : a = item
    · simp [h]
    · have h2 : ¬ item = a := fun e => h e.symm
      simp [h, h2, ih]

/-- The merge only appends: the result is the running header followed by the
discovered names it lacked, each once. -/
theorem mergeHeaders_spec (headers existingHeaders : List String) :
    ∃ added, mergeHeaders existingHeaders headers = existingHeaders ++ added ∧
      added.Nodup ∧ (∀ x, x ∈ added ↔ x ∈ headers ∧ x ∉ existingHeaders) := by
  induction headers generalizing existingHeaders with
  | nil => exact ⟨[], by simp [mergeHeaders]⟩
  | cons h headers ih =>
    unfold mergeHeaders
    rw [List.foldl_cons]
    by_cases hc : contains existingHeaders h = true
    · obtain ⟨added, heq, hnd, hmem⟩ := ih existingHeaders
      refine ⟨added, ?_, hnd, ?_⟩
      · simpa [hc, mergeHeaders] using heq
      · intro x
        rw [hmem, List.mem_cons]
        constructor
        · rintro ⟨h1, h2⟩; exact ⟨Or.inr h1, h2⟩
        · rintro ⟨h1 | h1, h2⟩
          · subst h1; exact absurd ((contains_iff _ _).mp hc) h2
          · exact ⟨h1, h2⟩
    · have hnot : h ∉ existingHeaders := fun hm => hc ((contains_iff _ _).mpr hm)
      obtain ⟨added, heq, hnd, hmem⟩ := ih (existingHeaders ++ [h])
      refine ⟨h :: added, ?_, ?_, ?_⟩
      · simpa [hc, mergeHeaders] using heq
      · rw [List.nodup_cons]
        refine ⟨?_, hnd⟩
        intro hin
        have := (hmem h).mp hin
        exact this.2 (by simp)
      · intro x
        rw [List.mem_cons, hmem, List.mem_cons]
        simp only [List.mem_append, List.mem_singleton, not_or]
        constructor
        · rintro (h1 | ⟨h1, h2, h3⟩)
          · subst h1; exact ⟨Or.inl rfl, hnot⟩
          · exact ⟨Or.inr h1, h2⟩
        · rintro ⟨h1 | h1, h2⟩
          · exact Or.inl h1
          · by_cases hx : x = h
            · exact Or.inl hx
            · exact Or.inr ⟨h1, h2, hx⟩

/-! ## Header theorems -/

/-- C1: the reconciled header holds a name exactly when the name is in the
existing header or is a field name of some event of the batch. -/
theorem reconcile_mem_iff (o : MapOrder) (H : List String) (B : List Event)
    (name : String) :
    name ∈ reconcile o H B ↔ name ∈ H ∨ ∃ e ∈ B, (GoMap.get? e name).isSome := by
  unfold reconcile
  obtain ⟨added, heq, -, hmem⟩ := mergeHeaders_spec (getHeaders o B) H
  rw [heq, List.mem_append, hmem, mem_getHeaders]
  tauto

/-- C2: the existing header is kept as the leading part of the reconciled header:
the result is the existing header followed by names it did not have, so every
existing name keeps its position, and an empty batch gives the existing header
back. -/
theorem reconcile_keeps_existing (o : MapOrder) (H : List String) (B : List Event) :
    (∃ added, reconcile o H B = H ++ added ∧ ∀ x ∈ added, x ∉ H) ∧
      H <+: reconcile o H B ∧
      (reconcile o H B).take H.length = H ∧
      reconcile o H [] = H := by
  obtain ⟨added, heq, -, hmem⟩ := mergeHeaders_spec (getHeaders o B) H
  refine ⟨⟨added, heq, fun x hx => ((hmem x).mp hx).2⟩, ⟨added, heq.symm⟩, ?_, ?_⟩
  · unfold reconcile
    rw [heq]
    simp
  · simp [reconcile, getHeaders_nil, mergeHeaders]

/-- C3: when the existing header has no duplicate name, neither has the
reconciled header. -/
theorem reconcile_nodup (o : MapOrder) (H : List String) (B : List Event)
    (hH : H.Nodup) : (reconcile o H B).Nodup := by
  unfold reconcile
  obtain ⟨added, heq, hnd, hmem⟩ := mergeHeaders_spec (getHeaders o B) H
  rw [heq, List.nodup_append]
  refine ⟨hH, hnd, ?_⟩
  intro a ha hb
  exact ((hmem a).mp hb).2 ha

/-- Witness of C3 on a header of two names and a batch of two events. -/
theorem reconcile_nodup_witness :
    ["id", "a"].Nodup ∧
      (reconcile MapOrder.backwards ["id", "a"]
        [[("a", Value.null), ("b", Value.bool true)], [("c", Value.str "x")]]).Nodup :=
  ⟨by decide, reconcile_nodup MapOrder.backwards ["id", "a"]
    [[("a", Value.null), ("b", Value.bool true)], [("c", Value.str "x")]] (by decide)⟩
/-! ## Lemmas on reading rows back and writing them -/

theorem reconcile_eq_append (o : MapOrder) (H : List String) (B : List Event) :
    ∃ added, reconcile o H B = H ++ added ∧ ∀ x ∈ added, x ∉ H := by
  obtain ⟨added, heq, -, hmem⟩ := mergeHeaders_spec (getHeaders o B) H
  exact ⟨added, heq, fun x hx => ((hmem x).mp hx).2⟩

theorem GoMap.get?_set_same {V : Type} (m : GoMap V) (k : String) (v : V) :
    GoMap.get? (GoMap.set m k v) k = some v := by
  induction m with
  | nil => simp [GoMap.set, GoMap.get?]
  | cons kv m ih =>
    obtain ⟨k', v'⟩ := kv
    unfold GoMap.set
    by_cases hk : k' = k
    · simp [hk, GoMap.get?]
    · simp [hk, GoMap.get?, ih]

theorem GoMap.get?_set_other {V : Type} (m : GoMap V) (k x : String) (v : V)
    (hx : k ≠ x) : GoMap.get? (GoMap.set m k v) x = GoMap.get? m x := by
  induction m with
  | nil => simp [GoMap.set, GoMap.get?, hx]
  | cons kv m ih =>
    obtain ⟨k', v'⟩ := kv
    unfold GoMap.set
    by_cases hk : k' = k
    · subst hk
      simp [GoMap.get?, hx]
    · by_cases hk2 : k' = x
      · subst hk2
        simp [hk, GoMap.get?]
      · simp [hk, hk2, GoMap.get?, ih]

/-- The event of a record, as assignments along the pairing of header and
record. -/
theorem recordToEvent_enumFrom (headers record : List String) (n : Nat)
    (acc : TextEvent) :
    (List.enumFrom n record).foldl
        (fun event iv =>
          match headers.get? iv.1 with
          | some header => GoMap.set event header iv.2
          | none => event)
        acc
      = ((headers.drop n).zip record).foldl (fun event hv => GoMap.set event hv.1 hv.2) acc := by
  induction record generalizing n acc with
  | nil => simp
  | cons v record ih =>
    rw [List.enumFrom_cons, List.foldl_cons, ih]
    cases hd : headers.drop n with
    | nil =>
      have hlen : headers.length ≤ n := List.drop_eq_nil_iff.mp hd
      have hnone : headers[n]? = none := List.getElem?_eq_none hlen
      have hd2 : headers.drop (n + 1) = [] := List.drop_eq_nil_iff.mpr (by omega)
      simp [hnone, hd2]
    | cons h rest =>
      have hlt : n < headers.length := by
        by_contra hge
        have : headers.drop n = [] := List.drop_eq_nil_iff.mpr (by omega)
        rw [this] at hd
        cases hd
      have hsplit := List.drop_eq_getElem_cons hlt
      rw [hd] at hsplit
      injection hsplit with h1 h2
      have hsome : headers[n]? = some h := by
        rw [List.getElem?_eq_getElem hlt, h1]
      simp [hsome, ← h2]

theorem recordToEvent_eq (headers record : List String) :
    recordToEvent headers record
      = (headers.zip record).foldl (fun event hv => GoMap.set event hv.1 hv.2) [] := by
  unfold recordToEvent
  rw [List.enum, recordToEvent_enumFrom]
  simp

theorem get?_foldl_set_of_not_mem (pairs : List (String × String)) (acc : TextEvent)
    (x : String) (hx : x ∉ pairs.map Prod.fst) :
    GoMap.get? (pairs.foldl (fun event hv => GoMap.set event hv.1 hv.2) acc) x
      = GoMap.get? acc x := by
  induction pairs generalizing acc with
  | nil => rfl
  | cons p pairs ih =>
    simp only [List.map_cons, List.mem_cons, not_or] at hx
    rw [List.foldl_cons, ih _ hx.2, GoMap.get?_set_other]
    exact fun h => hx.1 h.symm

theorem map_storedCell_foldl_set (headers record : List String) (acc : TextEvent)
    (hnd : headers.Nodup) (hlen : record.length = headers.length) :
    headers.map
        (storedCell ((headers.zip record).foldl
          (fun event hv => GoMap.set event hv.1 hv.2) acc))
      = record := by
  induction headers generalizing record acc with
  | nil =>
    cases record with
    | nil => rfl
    | cons v record => simp at hlen
  | cons h headers ih =>
    cases record with
    | nil => simp at hlen
    | cons v record =>
      rw [List.nodup_cons] at hnd
      simp only [List.length_cons, Nat.add_right_cancel_iff] at hlen
      rw [List.zip_cons_cons, List.foldl_cons, List.map_cons, ih record _ hnd.2 hlen]
      congr 1
      unfold storedCell
      rw [get?_foldl_set_of_not_mem, GoMap.get?_set_same]
      intro hmem
      apply hnd.1
      rw [List.map_fst_zip] at hmem
      · exact hmem
      · omega

theorem eventRow_stored (e : TextEvent) (headers : List String) :
    eventRow (.stored e) headers = headers.map (storedCell e) := rfl

/-- A row read from the file and projected on its header and further names the
header lacks is the row followed by empty cells. -/
theorem eventRow_recordToEvent (H added record : List String) (hnd : H.Nodup)
    (hlen : record.length = H.length) (hnew : ∀ x ∈ added, x ∉ H) :
    eventRow (.stored (recordToEvent H record)) (H ++ added)
      = record ++ List.replicate added.length "" := by
  rw [eventRow_stored, List.map_append, recordToEvent_eq,
    map_storedCell_foldl_set H record [] hnd hlen]
  congr 1
  rw [List.eq_replicate_iff]
  refine ⟨by simp, ?_⟩
  intro b hb
  rw [List.mem_map] at hb
  obtain ⟨x, hx, rfl⟩ := hb
  unfold storedCell
  rw [get?_foldl_set_of_not_mem]
  · rfl
  · intro hmem
    exact hnew x hx ((List.mem_map.mp hmem).elim fun p hp => by
      have := List.of_mem_zip hp.1
      rw [← hp.2]
      exact this.1)

theorem writeEvents_stored (writer : CsvWriter) (evts : List TextEvent)
    (headers : List String) :
    writeEvents writer (.stored evts) headers
      = writer ++ evts.map (fun e => eventRow (.stored e) headers) := by
  show evts.foldl (fun w event => writeEvent w (.stored event) headers) writer = _
  induction evts generalizing writer with
  | nil => simp
  | cons e evts ih => rw [List.foldl_cons, ih]; simp [writeEvent]

theorem writeEvents_fresh (writer : CsvWriter) (evts : List Event)
    (headers : List String) :
    writeEvents writer (.fresh evts) headers
      = writer ++ evts.map (fun e => eventRow (.fresh e) headers) := by
  show evts.foldl (fun w event => writeEvent w (.fresh event) headers) writer = _
  induction evts generalizing writer with
  | nil => simp
  | cons e evts ih => rw [List.foldl_cons, ih]; simp [writeEvent]

theorem eventRow_fresh (e : Event) (headers : List String) :
    eventRow (.fresh e) headers = headers.map (freshCell e) := rfl

theorem readExistingCSV_of_parse (csv : CsvCodec) (fs : FileSystem) (filePath bytes : String)
    (H : List String) (rows : List (List String))
    (hopen : fs.openFile filePath = some bytes)
    (hparse : csv.readAll bytes = some (H :: rows)) :
    readExistingCSV csv fs filePath = (rows.map (recordToEvent H), H) := by
  simp [readExistingCSV, hopen, hparse]

/-! ## Preservation of the rows of the existing file -/

/-- C4: when the existing file parses to a header `H` without duplicate names and
rows of `|H|` cells each, the rows `readExistingCSV` returns, written by
`writeEvents` under the reconciled header, are the original rows in order, each
followed by one empty cell per added column. -/
theorem existing_rows_preserved (o : MapOrder) (csv : CsvCodec) (fs : FileSystem)
    (filePath bytes : String) (H : List String) (rows : List (List String))
    (B : List Event)
    (hopen : fs.openFile filePath = some bytes)
    (hparse : csv.readAll bytes = some (H :: rows))
    (hH : H.Nodup) (hrows : ∀ row ∈ rows, row.length = H.length) :
    writeEvents [] (.stored (readExistingCSV csv fs filePath).1)
        (reconcile o (readExistingCSV csv fs filePath).2 B)
      = rows.map (fun row =>
          row ++ List.replicate ((reconcile o H B).length - H.length) "") := by
  rw [readExistingCSV_of_parse csv fs filePath bytes H rows hopen hparse,
    writeEvents_stored]
  obtain ⟨added, heq, hnew⟩ := reconcile_eq_append o H B
  simp only [List.nil_append, List.map_map]
  apply List.map_congr_left
  intro row hrow
  simp only [Function.comp, heq, List.length_append, Nat.add_sub_cancel_left]
  exact eventRow_recordToEvent H added row hH (hrows row hrow) hnew

/-- Witness of C4: a file of two rows gains one column. -/
theorem existing_rows_preserved_witness :
    sampleFs.openFile "csv_exports/click.csv" = some "id,a\n1,x\n2,y\n" ∧
      CsvCodec.plain.readAll "id,a\n1,x\n2,y\n" = some [["id", "a"], ["1", "x"], ["2", "y"]] ∧
      ["id", "a"].Nodup ∧
      (∀ row ∈ [["1", "x"], ["2", "y"]], row.length = ["id", "a"].length) ∧
      writeEvents [] (.stored (readExistingCSV CsvCodec.plain sampleFs "csv_exports/click.csv").1)
          (reconcile MapOrder.listed
            (readExistingCSV CsvCodec.plain sampleFs "csv_exports/click.csv").2
            [[("a", Value.str "z"), ("b", Value.bool true)]])
        = [["1", "x"], ["2", "y"]].map (fun row =>
            row ++ List.replicate
              ((reconcile MapOrder.listed ["id", "a"]
                [[("a", Value.str "z"), ("b", Value.bool true)]]).length
                - ["id", "a"].length) "") :=
  ⟨by decide, by decide, by decide, by decide,
    existing_rows_preserved MapOrder.listed CsvCodec.plain sampleFs "csv_exports/click.csv"
      "id,a\n1,x\n2,y\n" ["id", "a"] [["1", "x"], ["2", "y"]]
      [[("a", Value.str "z"), ("b", Value.bool true)]]
      (by decide) (by decide) (by decide) (by decide)⟩

/-! ## Lemmas on the export of one type -/

theorem exportRecords_eq (hdr : List String) (existingEvents : List TextEvent)
    (events : List Event) :
    exportRecords hdr existingEvents events
      = hdr :: (existingEvents.map (fun e => eventRow (.stored e) hdr) ++
          events.map (fun e => eventRow (.fresh e) hdr)) := by
  unfold exportRecords
  simp only [writeEvents_stored, writeEvents_fresh]
  simp

theorem exportType_skip (o : MapOrder) (csv : CsvCodec) (st : PassState)
    (eventType : String) (hB : pending st.eventsByType eventType = []) :
    exportType o csv st eventType = st := by
  simp [exportType, hB]

theorem exportType_created (o : MapOrder) (csv : CsvCodec) (st : PassState)
    (eventType : String) (hB : pending st.eventsByType eventType ≠ [])
    (hcreate : st.fs.denyCreate (filePathOf eventType) = false) :
    exportType o csv st eventType =
      { eventsByType := GoMap.set st.eventsByType eventType []
        fs := (st.fs.put (filePathOf eventType) "").writeAt (filePathOf eventType) 0
          ((csv.encode (recordsOf o csv st.fs eventType
            (pending st.eventsByType eventType))).data.take
            (csv.spill (recordsOf o csv st.fs eventType (pending st.eventsByType eventType))))
        updatedFiles := st.updatedFiles ++ [fileNameOf eventType]
        log := st.log
        trace := st.trace ++
          [.openFile (filePathOf eventType), .create (filePathOf eventType),
            .write (filePathOf eventType)
              (recordsOf o csv st.fs eventType (pending st.eventsByType eventType))]
        deferred :=
          { path := filePathOf eventType
            offset := ((csv.encode (recordsOf o csv st.fs eventType
              (pending st.eventsByType eventType))).data.take
              (csv.spill (recordsOf o csv st.fs eventType
                (pending st.eventsByType eventType)))).length
            buffered := (csv.encode (recordsOf o csv st.fs eventType
              (pending st.eventsByType eventType))).data.drop
              (csv.spill (recordsOf o csv st.fs eventType
                (pending st.eventsByType eventType))) } :: st.deferred } := by
  have hlen : (pending st.eventsByType eventType).length ≠ 0 := by
    simpa [List.length_eq_zero] using hB
  simp [exportType, hlen, FileSystem.create, hcreate, reconcile, recordsOf]

theorem exportType_refused (o : MapOrder) (csv : CsvCodec) (st : PassState)
    (eventType : String) (hB : pending st.eventsByType eventType ≠ [])
    (hcreate : st.fs.denyCreate (filePathOf eventType) = true) :
    exportType o csv st eventType =
      { st with
        log := st.log ++ [.createError eventType]
        trace := st.trace ++
          [.openFile (filePathOf eventType), .create (filePathOf eventType)] } := by
  have hlen : (pending st.eventsByType eventType).length ≠ 0 := by
    simpa [List.length_eq_zero] using hB
  simp [exportType, hlen, FileSystem.create, hcreate]

theorem files_put_same (fs : FileSystem) (path bytes : String) :
    (fs.put path bytes).files path = some bytes := by
  simp [FileSystem.put]

theorem files_put_other (fs : FileSystem) (path bytes p : String) (hp : path ≠ p) :
    (fs.put path bytes).files p = fs.files p := by
  have hp2 : ¬ p = path := fun h => hp h.symm
  simp [FileSystem.put, hp2]

theorem files_writeAt_other (fs : FileSystem) (path p : String) (off : Nat)
    (data : List Char) (hp : path ≠ p) :
    (fs.writeAt path off data).files p = fs.files p := by
  unfold FileSystem.writeAt
  split
  · rfl
  · exact files_put_other fs path _ p hp

/-- Writing changes no answer of the file system but the bytes of files. -/
theorem flags_writeAt (fs : FileSystem) (path : String) (off : Nat) (data : List Char) :
    (fs.writeAt path off data).denyCreate = fs.denyCreate ∧
      (fs.writeAt path off data).denyOpen = fs.denyOpen ∧
      (fs.writeAt path off data).denyWrite = fs.denyWrite ∧
      (fs.writeAt path off data).denyMkdir = fs.denyMkdir ∧
      (fs.writeAt path off data).dirs = fs.dirs := by
  unfold FileSystem.writeAt
  split <;> exact ⟨rfl, rfl, rfl, rfl, rfl⟩

theorem files_writeAt_denied (fs : FileSystem) (path : String) (off : Nat)
    (data : List Char) (hw : fs.denyWrite path = true) :
    fs.writeAt path off data = fs := by
  simp [FileSystem.writeAt, hw]

theorem files_writeAt_same (fs : FileSystem) (path : String) (off : Nat)
    (data : List Char) :
    (fs.writeAt path off data).files path
      = if data = [] ∨ fs.denyWrite path = true then fs.files path
        else some (String.mk (overwrite ((fs.files path).getD "").data off data)) := by
  unfold FileSystem.writeAt
  split
  · rfl
  · exact files_put_same fs path _

theorem overwrite_at_end (e r : List Char) : overwrite e e.length r = e ++ r := by
  unfold overwrite
  rw [List.take_length, Nat.sub_self, List.replicate_zero, List.append_nil,
    List.drop_eq_nil_of_le (Nat.le_add_right _ _), List.append_nil]

theorem overwrite_empty (data : List Char) : overwrite [] 0 data = data := by
  simp [overwrite]

/-- The file after `os.Create`, the bytes the buffer let through and the flush of
the rest at the offset reached: all the bytes. -/
theorem files_create_spill_flush (fs : FileSystem) (path bytes : String) (k : Nat)
    (hw : fs.denyWrite path = false) :
    (((fs.put path "").writeAt path 0 (bytes.data.take k)).writeAt path
        (bytes.data.take k).length (bytes.data.drop k)).files path = some bytes := by
  have hw2 : (fs.put path "").denyWrite path = false := hw
  have hearly : ((fs.put path "").writeAt path 0 (bytes.data.take k)).files path
      = some (String.mk (bytes.data.take k)) := by
    rw [files_writeAt_same, files_put_same]
    by_cases hnil : bytes.data.take k = []
    · rw [if_pos (Or.inl hnil), hnil]
    · rw [if_neg (by simp [hnil, hw2])]
      show some (String.mk (overwrite [] 0 (bytes.data.take k))) = _
      rw [overwrite_empty]
  have hflag : ((fs.put path "").writeAt path 0 (bytes.data.take k)).denyWrite path = false := by
    rw [(flags_writeAt _ _ _ _).2.2.1]
    exact hw
  rw [files_writeAt_same, hearly]
  by_cases hrest : bytes.data.drop k = []
  · have hall : bytes.data.take k = bytes.data := by
      have := List.take_append_drop k bytes.data
      rw [hrest, List.append_nil] at this
      exact this
    rw [if_pos (Or.inl hrest), hall]
  · rw [if_neg (by simp [hrest, hflag])]
    show some (String.mk (overwrite (bytes.data.take k) (bytes.data.take k).length
      (bytes.data.drop k))) = _
    rw [overwrite_at_end, List.take_append_drop]

/-- The file after `os.Create` when every write to it fails: truncated. -/
theorem files_create_denied (fs : FileSystem) (path : String) (early rest : List Char)
    (off : Nat) (hw : fs.denyWrite path = true) :
    (((fs.put path "").writeAt path 0 early).writeAt path off rest).files path = some "" := by
  have hw2 : (fs.put path "").denyWrite path = true := hw
  rw [files_writeAt_denied _ _ _ _ hw2, files_writeAt_denied _ _ _ _ hw2, files_put_same]

/-! ## The row of an event -/

theorem pending_set (m : Store) (k t : String) (v : List Event) :
    pending (GoMap.set m k v) t = if k = t then v else pending m t := by
  unfold pending
  by_cases h : k = t
  · subst h
    simp [GoMap.get?_set_same]
  · simp [GoMap.get?_set_other m k t v h, h]

theorem eventTypeOf_eq_some (e : Event) (t : String) :
    eventTypeOf e = some t ↔ GoMap.get? e "eventType" = some (.str t) := by
  unfold eventTypeOf
  split
  · rename_i s hs
    rw [hs]
    constructor
    · intro h; injection h with h; rw [h]
    · intro h; injection h with h; injection h with h; rw [h]
  · rename_i hne
    constructor
    · intro h; cases h
    · intro h; exact absurd h (hne t)

theorem foldl_ingest (newEvents : List Event) (acc : Store × List LogLine) :
    (∀ t, pending (newEvents.foldl ingest acc).1 t
        = pending acc.1 t ++ newEvents.filter (fun e => eventTypeOf e = some t)) ∧
      (newEvents.foldl ingest acc).2
        = acc.2 ++ (newEvents.filter (fun e => eventTypeOf e = none)).map
            LogLine.eventWithoutType := by
  induction newEvents generalizing acc with
  | nil => simp
  | cons e rest ih =>
    rw [List.foldl_cons]
    obtain ⟨ih1, ih2⟩ := ih (ingest acc e)
    cases hty : eventTypeOf e with
    | none =>
      have hstep : ingest acc e = (acc.1, acc.2 ++ [.eventWithoutType e]) := by
        simp [ingest, hty]
      constructor
      · intro t
        rw [ih1 t, hstep]
        simp [List.filter_cons, hty]
      · rw [ih2, hstep]
        simp [List.filter_cons, hty]
    | some ty =>
      have hstep : ingest acc e
          = (GoMap.set acc.1 ty (pending acc.1 ty ++ [e]), acc.2) := by
        simp [ingest, hty]
      constructor
      · intro t
        rw [ih1 t, hstep]
        simp only [pending_set, List.filter_cons, hty]
        by_cases h : ty = t
        · subst h; simp
        · simp [h]
      · rw [ih2, hstep]
        simp [List.filter_cons, hty]

/-- C8: for every decoded array, `handleEvents` appends to the sequence of each
type exactly the objects whose `eventType` field is that string, in arrival
order, logs and skips the objects without a string `eventType`, and answers 201
with the length of the whole array; the array `[{"x":1}]` stores nothing and is
answered `Received 1 events`. -/
theorem handleEvents_stores_typed (eventsByType : Store) (newEvents : List Event) :
    (∀ t, pending (handleEvents eventsByType "POST" (.ok newEvents)).1 t
        = pending eventsByType t ++ newEvents.filter (fun e => eventTypeOf e = some t)) ∧
      (∀ (e : Event) (t : String),
        eventTypeOf e = some t ↔ GoMap.get? e "eventType" = some (.str t)) ∧
      (handleEvents eventsByType "POST" (.ok newEvents)).2.2
        = (newEvents.filter (fun e => eventTypeOf e = none)).map LogLine.eventWithoutType ∧
      (handleEvents eventsByType "POST" (.ok newEvents)).2.1
        = ⟨201, "Received " ++ fmtNat newEvents.length ++ " events"⟩ ∧
      (handleEvents [] "POST" (.ok [[("x", .num ⟨false, [1], 1⟩)]])).1 = [] ∧
      (handleEvents [] "POST" (.ok [[("x", .num ⟨false, [1], 1⟩)]])).2.1
        = ⟨201, "Received 1 events"⟩ := by
  obtain ⟨h1, h2⟩ := foldl_ingest newEvents (eventsByType, [])
  refine ⟨?_, eventTypeOf_eq_some, ?_, ?_, rfl, by decide⟩
  · intro t
    simpa [handleEvents] using h1 t
  · simpa [handleEvents] using h2
  · simp [handleEvents]

/-! ## Lemmas on the export pass -/

theorem pending_eq_nil_of_not_mem_keys (m : Store) (t : String)
    (h : t ∉ GoMap.keys m) : pending m t = [] := by
  rw [GoMap.mem_keys] at h
  unfold pending
  cases hg : GoMap.get? m t with
  | none => rfl
  | some v => simp [hg] at h

theorem files_create_spill_other (fs : FileSystem) (path : String) (early : List Char)
    (p : String) (hp : path ≠ p) :
    ((fs.put path "").writeAt path 0 early).files p = fs.files p := by
  rw [files_writeAt_other _ _ _ _ _ hp, files_put_other _ _ _ _ hp]

theorem denyCreate_create_spill (fs : FileSystem) (path : String) (early : List Char) :
    ((fs.put path "").writeAt path 0 early).denyCreate = fs.denyCreate := by
  rw [(flags_writeAt _ _ _ _).1]
  rfl

/-- The three outcomes of the loop body for one type. -/
theorem exportType_cases (o : MapOrder) (csv : CsvCodec) (st : PassState)
    (eventType : String) :
    (pending st.eventsByType eventType = [] ∧ exportType o csv st eventType = st) ∨
      (pending st.eventsByType eventType ≠ [] ∧
        st.fs.denyCreate (filePathOf eventType) = true ∧
        (exportType o csv st eventType).eventsByType = st.eventsByType ∧
        (exportType o csv st eventType).fs = st.fs ∧
        (exportType o csv st eventType).updatedFiles = st.updatedFiles) ∨
      (pending st.eventsByType eventType ≠ [] ∧
        st.fs.denyCreate (filePathOf eventType) = false ∧
        (exportType o csv st eventType).eventsByType
          = GoMap.set st.eventsByType eventType [] ∧
        (∃ early, (exportType o csv st eventType).fs
          = (st.fs.put (filePathOf eventType) "").writeAt (filePathOf eventType) 0 early) ∧
        (exportType o csv st eventType).updatedFiles
          = st.updatedFiles ++ [fileNameOf eventType]) := by
  by_cases hB : pending st.eventsByType eventType = []
  · exact Or.inl ⟨hB, exportType_skip o csv st eventType hB⟩
  · cases hc : st.fs.denyCreate (filePathOf eventType) with
    | true =>
      refine Or.inr (Or.inl ⟨hB, rfl, ?_, ?_, ?_⟩) <;>
        rw [exportType_refused o csv st eventType hB hc]
    | false =>
      refine Or.inr (Or.inr ⟨hB, rfl, ?_, ?_, ?_⟩)
      · rw [exportType_created o csv st eventType hB hc]
      · rw [exportType_created o csv st eventType hB hc]
        exact ⟨_, rfl⟩
      · rw [exportType_created o csv st eventType hB hc]

/-- What the loop of `saveCSV` keeps true, whatever fails. -/
theorem foldl_exportType_frame (o : MapOrder) (csv : CsvCodec) (ts : List String)
    (st : PassState) :
    (∀ t, pending (ts.foldl (exportType o csv) st).eventsByType t
        = pending st.eventsByType t ∨
      pending (ts.foldl (exportType o csv) st).eventsByType t = []) ∧
      (∀ name ∈ (ts.foldl (exportType o csv) st).updatedFiles,
        name ∈ st.updatedFiles ∨
          ∃ t ∈ ts, pending st.eventsByType t ≠ [] ∧ name = fileNameOf t) ∧
      (∀ p, (∀ t ∈ ts, pending st.eventsByType t ≠ [] → filePathOf t ≠ p) →
        (ts.foldl (exportType o csv) st).fs.files p = st.fs.files p) := by
  induction ts generalizing st with
  | nil => simp
  | cons t ts ih =>
    rw [List.foldl_cons]
    obtain ⟨ih1, ih2, ih3⟩ := ih (exportType o csv st t)
    have hpend : ∀ t', pending (exportType o csv st t).eventsByType t'
        = pending st.eventsByType t' ∨
        pending (exportType o csv st t).eventsByType t' = [] := by
      intro t'
      rcases exportType_cases o csv st t with ⟨-, h⟩ | ⟨-, -, h, -, -⟩ | ⟨-, -, h, -, -⟩
      · rw [h]; exact Or.inl rfl
      · rw [h]; exact Or.inl rfl
      · rw [h, pending_set]
        by_cases htt : t = t'
        · simp [htt]
        · simp [htt]
    have hne : ∀ t', pending (exportType o csv st t).eventsByType t' ≠ [] →
        pending st.eventsByType t' ≠ [] := by
      intro t' h
      rcases hpend t' with h' | h'
      · rwa [h'] at h
      · exact absurd h' h
    refine ⟨?_, ?_, ?_⟩
    · intro t'
      rcases ih1 t' with h | h
      · rcases hpend t' with h' | h'
        · exact Or.inl (h.trans h')
        · exact Or.inr (h.trans h')
      · exact Or.inr h
    · intro name hname
      rcases ih2 name hname with h | ⟨t', ht', hne', hn⟩
      · rcases exportType_cases o csv st t with ⟨-, h'⟩ | ⟨-, -, -, -, h'⟩ | ⟨hB, -, -, -, h'⟩
        · rw [h'] at h; exact Or.inl h
        · rw [h'] at h; exact Or.inl h
        · rw [h', List.mem_append, List.mem_singleton] at h
          rcases h with h | h
          · exact Or.inl h
          · exact Or.inr ⟨t, List.mem_cons_self t ts, hB, h⟩
      · exact Or.inr ⟨t', List.mem_cons_of_mem t ht', hne t' hne', hn⟩
    · intro p hp
      rw [ih3 p (fun t' ht' hne' => hp t' (List.mem_cons_of_mem t ht') (hne t' hne'))]
      rcases exportType_cases o csv st t with ⟨-, h'⟩ | ⟨-, -, -, h', -⟩ | ⟨hB, -, -, ⟨bytes, h'⟩, -⟩
      · rw [h']
      · rw [h']
      · rw [h']
        exact files_create_spill_other st.fs _ bytes p (hp t (List.mem_cons_self t ts) hB)

/-- What the loop of `saveCSV` does when no file creation is refused. -/
theorem foldl_exportType_created (o : MapOrder) (csv : CsvCodec) (ts : List String)
    (st : PassState) (hnd : ts.Nodup)
    (hcr : ∀ t ∈ ts, pending st.eventsByType t ≠ [] →
      st.fs.denyCreate (filePathOf t) = false) :
    (∀ t, pending (ts.foldl (exportType o csv) st).eventsByType t
        = if t ∈ ts then [] else pending st.eventsByType t) ∧
      (ts.foldl (exportType o csv) st).updatedFiles
        = st.updatedFiles ++
          (ts.filter (fun t => (pending st.eventsByType t).length ≠ 0)).map fileNameOf := by
  induction ts generalizing st with
  | nil => simp
  | cons t ts ih =>
    rw [List.foldl_cons]
    rw [List.nodup_cons] at hnd
    have hstep : (∀ t', pending (exportType o csv st t).eventsByType t'
          = if t = t' then [] else pending st.eventsByType t') ∧
        (exportType o csv st t).updatedFiles
          = st.updatedFiles ++
            (if (pending st.eventsByType t).length ≠ 0 then [fileNameOf t] else []) ∧
        (exportType o csv st t).fs.denyCreate = st.fs.denyCreate := by
      rcases exportType_cases o csv st t with
        ⟨hB, h⟩ | ⟨hB, hc, -, -, -⟩ | ⟨hB, -, h1, ⟨bytes, h2⟩, h3⟩
      · rw [h]
        refine ⟨?_, by simp [hB], rfl⟩
        intro t'
        by_cases htt : t = t'
        · subst htt; simp [hB]
        · simp [htt]
      · rw [hcr t (List.mem_cons_self t ts) hB] at hc
        cases hc
      · refine ⟨?_, ?_, ?_⟩
        · intro t'
          rw [h1, pending_set]
        · have hlen : (pending st.eventsByType t).length ≠ 0 := by
            simpa [List.length_eq_zero] using hB
          rw [h3]
          simp [hlen]
        · rw [h2]
          exact denyCreate_create_spill st.fs _ bytes
    obtain ⟨hs1, hs2, hs3⟩ := hstep
    have hsame : ∀ t' ∈ ts, pending (exportType o csv st t).eventsByType t'
        = pending st.eventsByType t' := by
      intro t' ht'
      have htt : ¬ t = t' := fun h => hnd.1 (h ▸ ht')
      rw [hs1 t']
      simp [htt]
    obtain ⟨ih1, ih2⟩ := ih (exportType o csv st t) hnd.2 (by
      intro t' ht' hne
      rw [hs3]
      rw [hsame t' ht'] at hne
      exact hcr t' (List.mem_cons_of_mem t ht') hne)
    refine ⟨?_, ?_⟩
    · intro t'
      rw [ih1 t', hs1 t']
      by_cases h1 : t' ∈ ts
      · simp [h1]
      · by_cases h2 : t = t'
        · subst h2; simp
        · have h3 : ¬ t' = t := fun h => h2 h.symm
          simp [h1, h2, h3]
    · rw [ih2, hs2, List.filter_cons]
      have hfilter : ts.filter
            (fun t' => (pending (exportType o csv st t).eventsByType t').length ≠ 0)
          = ts.filter (fun t' => (pending st.eventsByType t').length ≠ 0) := by
        apply List.filter_congr
        intro t' ht'
        rw [hsame t' ht']
      rw [hfilter]
      by_cases hlen : (pending st.eventsByType t).length = 0
      · simp [hlen]
      · simp [hlen]

theorem foldl_exportType_idle (o : MapOrder) (csv : CsvCodec) (ts : List String)
    (st : PassState) (hall : ∀ t, pending st.eventsByType t = []) :
    ts.foldl (exportType o csv) st = st := by
  induction ts with
  | nil => rfl
  | cons t ts ih => rw [List.foldl_cons, exportType_skip o csv st t (hall t), ih]

/-- A pass over a store with nothing pending writes no file. -/
theorem saveCSV_idle (o : MapOrder) (csv : CsvCodec) (eventsByType : Store)
    (fs : FileSystem) (hall : ∀ t, pending eventsByType t = []) :
    (saveCSV o csv eventsByType fs).updatedFiles = [] ∧
      (saveCSV o csv eventsByType fs).fs.files = fs.files ∧
      (saveCSV o csv eventsByType fs).eventsByType = eventsByType ∧
      ∀ c ∈ (saveCSV o csv eventsByType fs).trace, c = .mkdirAll csvDir := by
  unfold saveCSV
  split
  · simp
  · cases hmk : fs.mkdirAll csvDir with
    | none => simp
    | some fs1 =>
      have hfiles : fs1.files = fs.files := by
        unfold FileSystem.mkdirAll at hmk
        split at hmk
        · cases hmk
        · injection hmk with hmk
          rw [← hmk]
      simp only
      rw [foldl_exportType_idle o csv _ _ hall]
      simp [hfiles, FileSystem.runDeferred]

/-! ## Lemmas on the deferred flushes -/

theorem runDeferred_nil (fs : FileSystem) : fs.runDeferred [] = fs := rfl

theorem runDeferred_cons (fs : FileSystem) (w : OpenWriter) (ws : List OpenWriter) :
    fs.runDeferred (w :: ws) = (fs.writeAt w.path w.offset w.buffered).runDeferred ws := rfl

theorem runDeferred_append (fs : FileSystem) (ws ws2 : List OpenWriter) :
    fs.runDeferred (ws ++ ws2) = (fs.runDeferred ws).runDeferred ws2 := by
  simp [FileSystem.runDeferred, List.foldl_append]

/-- The deferred flushes change no answer of the file system but the bytes of
files. -/
theorem flags_runDeferred (ws : List OpenWriter) (fs : FileSystem) :
    (fs.runDeferred ws).denyCreate = fs.denyCreate ∧
      (fs.runDeferred ws).denyOpen = fs.denyOpen ∧
      (fs.runDeferred ws).denyWrite = fs.denyWrite ∧
      (fs.runDeferred ws).denyMkdir = fs.denyMkdir ∧
      (fs.runDeferred ws).dirs = fs.dirs := by
  induction ws generalizing fs with
  | nil => exact ⟨rfl, rfl, rfl, rfl, rfl⟩
  | cons w ws ih =>
    rw [runDeferred_cons]
    obtain ⟨h1, h2, h3, h4, h5⟩ := ih (fs.writeAt w.path w.offset w.buffered)
    obtain ⟨g1, g2, g3, g4, g5⟩ := flags_writeAt fs w.path w.offset w.buffered
    exact ⟨h1.trans g1, h2.trans g2, h3.trans g3, h4.trans g4, h5.trans g5⟩

/-- The deferred flushes leave the files that none of the writers holds. -/
theorem files_runDeferred_other (ws : List OpenWriter) (fs : FileSystem) (p : String)
    (h : ∀ w ∈ ws, w.path ≠ p) : (fs.runDeferred ws).files p = fs.files p := by
  induction ws generalizing fs with
  | nil => rfl
  | cons w ws ih =>
    rw [runDeferred_cons, ih _ (fun w' hw' => h w' (List.mem_cons_of_mem w hw')),
      files_writeAt_other _ _ _ _ _ (h w (List.mem_cons_self w ws))]

/-- The writers the loop body defers: none, or the writer of the file of the
type, which then has pending events. -/
theorem exportType_deferred (o : MapOrder) (csv : CsvCodec) (st : PassState) (t : String) :
    (exportType o csv st t).deferred = st.deferred ∨
      (pending st.eventsByType t ≠ [] ∧
        ∃ w : OpenWriter, w.path = filePathOf t ∧
          (exportType o csv st t).deferred = w :: st.deferred) := by
  by_cases hB : pending st.eventsByType t = []
  · left
    rw [exportType_skip o csv st t hB]
  · cases hc : st.fs.denyCreate (filePathOf t) with
    | true =>
      left
      rw [exportType_refused o csv st t hB hc]
    | false =>
      right
      refine ⟨hB, ?_⟩
      rw [exportType_created o csv st t hB hc]
      exact ⟨_, rfl, rfl⟩

/-- The writers the loop defers are those of files of types with pending
events, put before the ones deferred already. -/
theorem foldl_exportType_deferred (o : MapOrder) (csv : CsvCodec) (ts : List String)
    (st : PassState) :
    ∃ added : List OpenWriter,
      (ts.foldl (exportType o csv) st).deferred = added ++ st.deferred ∧
        ∀ w ∈ added, ∃ t ∈ ts, pending st.eventsByType t ≠ [] ∧ w.path = filePathOf t := by
  induction ts generalizing st with
  | nil => exact ⟨[], rfl, by simp⟩
  | cons t ts ih =>
    rw [List.foldl_cons]
    obtain ⟨added, hadd, hpaths⟩ := ih (exportType o csv st t)
    have hne : ∀ t', pending (exportType o csv st t).eventsByType t' ≠ [] →
        pending st.eventsByType t' ≠ [] := by
      intro t' h
      rcases exportType_cases o csv st t with ⟨-, h'⟩ | ⟨-, -, h', -, -⟩ | ⟨-, -, h', -, -⟩
      · rwa [h'] at h
      · rwa [h'] at h
      · rw [h', pending_set] at h
        by_cases htt : t = t'
        · simp [htt] at h
        · simpa [htt] using h
    have hpaths' : ∀ w ∈ added, ∃ t' ∈ t :: ts,
        pending st.eventsByType t' ≠ [] ∧ w.path = filePathOf t' := by
      intro w hw
      obtain ⟨t', ht', hB', hp'⟩ := hpaths w hw
      exact ⟨t', List.mem_cons_of_mem t ht', hne t' hB', hp'⟩
    rcases exportType_deferred o csv st t with h | ⟨hB, w, hw, h⟩
    · exact ⟨added, by rw [hadd, h], hpaths'⟩
    · refine ⟨added ++ [w], by rw [hadd, h]; simp, ?_⟩
      intro w' hw'
      rcases List.mem_append.mp hw' with h1 | h1
      · exact hpaths' w' h1
      · rw [List.mem_singleton] at h1
        subst h1
        exact ⟨t, List.mem_cons_self t ts, hB, hw⟩

theorem saveCSV_of_mkdir (o : MapOrder) (csv : CsvCodec) (eventsByType : Store)
    (fs : FileSystem) (hlen : GoMap.len eventsByType ≠ 0)
    (hmk : fs.denyMkdir csvDir = false) :
    ∃ fs1 : FileSystem, fs1.files = fs.files ∧ fs1.denyCreate = fs.denyCreate ∧
      (saveCSV o csv eventsByType fs).eventsByType
        = ((o.visit (GoMap.keys eventsByType)).foldl (exportType o csv)
            { eventsByType := eventsByType, fs := fs1, updatedFiles := [], log := [],
              trace := [.mkdirAll csvDir], deferred := [] }).eventsByType ∧
      (saveCSV o csv eventsByType fs).updatedFiles
        = ((o.visit (GoMap.keys eventsByType)).foldl (exportType o csv)
            { eventsByType := eventsByType, fs := fs1, updatedFiles := [], log := [],
              trace := [.mkdirAll csvDir], deferred := [] }).updatedFiles ∧
      (saveCSV o csv eventsByType fs).fs
        = ((o.visit (GoMap.keys eventsByType)).foldl (exportType o csv)
            { eventsByType := eventsByType, fs := fs1, updatedFiles := [], log := [],
              trace := [.mkdirAll csvDir], deferred := [] }).fs.runDeferred
          ((o.visit (GoMap.keys eventsByType)).foldl (exportType o csv)
            { eventsByType := eventsByType, fs := fs1, updatedFiles := [], log := [],
              trace := [.mkdirAll csvDir], deferred := [] }).deferred := by
  refine ⟨{ fs with dirs := fun d => if d = csvDir then true else fs.dirs d }, rfl, rfl, ?_⟩
  simp [saveCSV, hlen, FileSystem.mkdirAll, hmk]

theorem nodup_visit_keys (o : MapOrder) (m : Store) : (o.visit (GoMap.keys m)).Nodup :=
  (o.perm _).nodup_iff.mpr (GoMap.nodup_keys m)

/-! ## The export pass -/

/-- C9: after a pass in which the directory and every file are created, no type
has a pending event and the files reported are those of the types that had
pending events, each once; a pass run right after reports no file, leaves every
file as it is and makes no call on the file system but `MkdirAll`. -/
theorem export_pass_clears_pending (o o2 : MapOrder) (csv : CsvCodec)
    (eventsByType : Store) (fs : FileSystem)
    (hmk : fs.denyMkdir csvDir = false)
    (hcr : ∀ t, pending eventsByType t ≠ [] → fs.denyCreate (filePathOf t) = false) :
    (∀ t, pending (saveCSV o csv eventsByType fs).eventsByType t = []) ∧
      (saveCSV o csv eventsByType fs).updatedFiles.Perm
        (((GoMap.keys eventsByType).filter
          (fun t => (pending eventsByType t).length ≠ 0)).map fileNameOf) ∧
      (∀ name, name ∈ (saveCSV o csv eventsByType fs).updatedFiles ↔
        ∃ t, pending eventsByType t ≠ [] ∧ name = fileNameOf t) ∧
      (saveCSV o2 csv (saveCSV o csv eventsByType fs).eventsByType
        (saveCSV o csv eventsByType fs).fs).updatedFiles = [] ∧
      (saveCSV o2 csv (saveCSV o csv eventsByType fs).eventsByType
        (saveCSV o csv eventsByType fs).fs).fs.files
        = (saveCSV o csv eventsByType fs).fs.files ∧
      (∀ c ∈ (saveCSV o2 csv (saveCSV o csv eventsByType fs).eventsByType
        (saveCSV o csv eventsByType fs).fs).trace, c = .mkdirAll csvDir) := by
  have hclear : ∀ t, pending (saveCSV o csv eventsByType fs).eventsByType t = [] ∧
      (saveCSV o csv eventsByType fs).updatedFiles.Perm
        (((GoMap.keys eventsByType).filter
          (fun t => (pending eventsByType t).length ≠ 0)).map fileNameOf) := by
    intro t
    by_cases hlen : GoMap.len eventsByType = 0
    · have hkeys : GoMap.keys eventsByType = [] := List.length_eq_zero.mp hlen
      have hnil : ∀ t, pending eventsByType t = [] := fun t =>
        pending_eq_nil_of_not_mem_keys eventsByType t (by simp [hkeys])
      simp [saveCSV, hlen, hnil, hkeys]
    · obtain ⟨fs1, -, hdeny, hst, hup, -⟩ := saveCSV_of_mkdir o csv eventsByType fs hlen hmk
      obtain ⟨h1, h2⟩ := foldl_exportType_created o csv (o.visit (GoMap.keys eventsByType))
        { eventsByType := eventsByType, fs := fs1, updatedFiles := [], log := [],
          trace := [.mkdirAll csvDir], deferred := [] }
        (nodup_visit_keys o eventsByType)
        (fun t _ hne => by rw [hdeny]; exact hcr t hne)
      refine ⟨?_, ?_⟩
      · rw [hst, h1 t]
        split
        · rfl
        · rename_i hnot
          rw [MapOrder.mem_visit] at hnot
          exact pending_eq_nil_of_not_mem_keys eventsByType t hnot
      · rw [hup, h2]
        simp only [List.nil_append]
        exact ((o.perm _).filter _).map _
  have hperm := (hclear "").2
  have hnil : ∀ t, pending (saveCSV o csv eventsByType fs).eventsByType t = [] :=
    fun t => (hclear t).1
  obtain ⟨i1, i2, -, i4⟩ := saveCSV_idle o2 csv _ (saveCSV o csv eventsByType fs).fs hnil
  refine ⟨hnil, hperm, ?_, i1, i2, i4⟩
  intro name
  rw [hperm.mem_iff, List.mem_map]
  constructor
  · rintro ⟨t, ht, rfl⟩
    rw [List.mem_filter] at ht
    refine ⟨t, ?_, rfl⟩
    intro h
    simp [h] at ht
  · rintro ⟨t, hne, rfl⟩
    refine ⟨t, ?_, rfl⟩
    rw [List.mem_filter]
    refine ⟨?_, ?_⟩
    · by_contra hnot
      exact hne (pending_eq_nil_of_not_mem_keys eventsByType t hnot)
    · simpa [List.length_eq_zero] using hne

/-- Witness of C9: the pass over `samplePass` clears the type `click`. -/
theorem export_pass_clears_pending_witness :
    sampleFs.denyMkdir csvDir = false ∧
      (saveCSV MapOrder.listed CsvCodec.plain samplePass.eventsByType sampleFs).updatedFiles.Perm
        (((GoMap.keys samplePass.eventsByType).filter
          (fun t => (pending samplePass.eventsByType t).length ≠ 0)).map fileNameOf) :=
  ⟨rfl, (export_pass_clears_pending MapOrder.listed MapOrder.backwards CsvCodec.plain
    samplePass.eventsByType sampleFs rfl (fun _ _ => rfl)).2.1⟩

theorem mergeHeaders_append (headers existingHeaders : List String)
    (hnd : headers.Nodup) (hdis : ∀ x ∈ headers, x ∉ existingHeaders) :
    mergeHeaders existingHeaders headers = existingHeaders ++ headers := by
  induction headers generalizing existingHeaders with
  | nil => simp [mergeHeaders]
  | cons h headers ih =>
    rw [List.nodup_cons] at hnd
    have hc : contains existingHeaders h = false := by
      cases hcon : contains existingHeaders h with
      | false => rfl
      | true => exact absurd ((contains_iff _ _).mp hcon) (hdis h (List.mem_cons_self h headers))
    have hrest := ih (existingHeaders ++ [h]) hnd.2 (by
      intro x hx
      simp only [List.mem_append, List.mem_singleton, not_or]
      refine ⟨hdis x (List.mem_cons_of_mem h hx), ?_⟩
      intro hxh
      subst hxh
      exact hnd.1 hx)
    unfold mergeHeaders at hrest ⊢
    rw [List.foldl_cons]
    simp only [hc, Bool.not_false, if_true]
    rw [hrest]
    simp

theorem reconcile_nil_left (o : MapOrder) (B : List Event) :
    reconcile o [] B = getHeaders o B := by
  unfold reconcile
  rw [mergeHeaders_append _ _ (nodup_getHeaders o B) (by simp)]
  simp


theorem clickStore_eq : clickStore = [("click", [clickAB, clickBC])] := rfl

/-! ## Lemmas on the outcome of one type within a pass -/

theorem flags_create_spill (fs : FileSystem) (path : String) (early : List Char) :
    ((fs.put path "").writeAt path 0 early).denyOpen = fs.denyOpen ∧
      ((fs.put path "").writeAt path 0 early).denyWrite = fs.denyWrite ∧
      ((fs.put path "").writeAt path 0 early).denyMkdir = fs.denyMkdir := by
  obtain ⟨-, g2, g3, g4, -⟩ := flags_writeAt (fs.put path "") path 0 early
  exact ⟨g2, g3, g4⟩

/-- The loop body never changes what the file system will refuse. -/
theorem exportType_flags (o : MapOrder) (csv : CsvCodec) (st : PassState) (t : String) :
    (exportType o csv st t).fs.denyCreate = st.fs.denyCreate ∧
      (exportType o csv st t).fs.denyOpen = st.fs.denyOpen ∧
      (exportType o csv st t).fs.denyWrite = st.fs.denyWrite := by
  rcases exportType_cases o csv st t with ⟨-, h⟩ | ⟨-, -, -, h, -⟩ | ⟨-, -, -, ⟨bytes, h⟩, -⟩
  · rw [h]; exact ⟨rfl, rfl, rfl⟩
  · rw [h]; exact ⟨rfl, rfl, rfl⟩
  · rw [h]
    exact ⟨denyCreate_create_spill st.fs _ bytes, (flags_create_spill st.fs _ bytes).1,
      (flags_create_spill st.fs _ bytes).2.1⟩

/-- The loop body for one type leaves the pending events of the other types. -/
theorem exportType_pending_other (o : MapOrder) (csv : CsvCodec) (st : PassState)
    (t t' : String) (htt : t ≠ t') :
    pending (exportType o csv st t).eventsByType t' = pending st.eventsByType t' := by
  rcases exportType_cases o csv st t with ⟨-, h⟩ | ⟨-, -, h, -, -⟩ | ⟨-, -, h, -, -⟩
  · rw [h]
  · rw [h]
  · rw [h, pending_set]
    simp [htt]

theorem foldl_exportType_pending_of_not_mem (o : MapOrder) (csv : CsvCodec)
    (ts : List String) (st : PassState) (t : String) (ht : t ∉ ts) :
    pending (ts.foldl (exportType o csv) st).eventsByType t = pending st.eventsByType t := by
  induction ts generalizing st with
  | nil => rfl
  | cons t0 ts ih =>
    simp only [List.mem_cons, not_or] at ht
    rw [List.foldl_cons, ih _ ht.2, exportType_pending_other o csv st t0 t (fun h => ht.1 h.symm)]

theorem exportType_updatedFiles_mono (o : MapOrder) (csv : CsvCodec) (st : PassState)
    (t name : String) (h : name ∈ st.updatedFiles) :
    name ∈ (exportType o csv st t).updatedFiles := by
  rcases exportType_cases o csv st t with ⟨-, h'⟩ | ⟨-, -, -, -, h'⟩ | ⟨-, -, -, -, h'⟩
  · rw [h']; exact h
  · rw [h']; exact h
  · rw [h']; exact List.mem_append_left _ h

theorem foldl_exportType_updatedFiles_mono (o : MapOrder) (csv : CsvCodec)
    (ts : List String) (st : PassState) (name : String) (h : name ∈ st.updatedFiles) :
    name ∈ (ts.foldl (exportType o csv) st).updatedFiles := by
  induction ts generalizing st with
  | nil => exact h
  | cons t0 ts ih =>
    rw [List.foldl_cons]
    exact ih _ (exportType_updatedFiles_mono o csv st t0 name h)

theorem readExistingCSV_congr (csv : CsvCodec) (fs fs2 : FileSystem) (path : String)
    (hfiles : fs2.files path = fs.files path) (hopen : fs2.denyOpen = fs.denyOpen) :
    readExistingCSV csv fs2 path = readExistingCSV csv fs path := by
  simp [readExistingCSV, FileSystem.openFile, hfiles, hopen]

/-- A type whose file can be created is cleared and reported by the loop,
whatever happens to the other types. -/
theorem foldl_exportType_clears (o : MapOrder) (csv : CsvCodec) (ts : List String)
    (st : PassState) (t : String) (hnd : ts.Nodup) (ht : t ∈ ts)
    (hB : pending st.eventsByType t ≠ [])
    (hcr : st.fs.denyCreate (filePathOf t) = false) :
    pending (ts.foldl (exportType o csv) st).eventsByType t = [] ∧
      fileNameOf t ∈ (ts.foldl (exportType o csv) st).updatedFiles := by
  induction ts generalizing st with
  | nil => simp at ht
  | cons t0 ts ih =>
    rw [List.nodup_cons] at hnd
    rw [List.foldl_cons]
    by_cases h0 : t0 = t
    · subst h0
      have hstep := exportType_created o csv st t0 hB hcr
      refine ⟨?_, ?_⟩
      · rw [foldl_exportType_pending_of_not_mem o csv ts _ t0 hnd.1, hstep]
        simp [pending_set]
      · apply foldl_exportType_updatedFiles_mono
        rw [hstep]
        simp
    · have ht' : t ∈ ts := by
        rcases List.mem_cons.mp ht with h | h
        · exact absurd h.symm h0
        · exact h
      apply ih _ hnd.2 ht'
      · rw [exportType_pending_other o csv st t0 t h0]
        exact hB
      · rw [(exportType_flags o csv st t0).1]
        exact hcr

theorem foldl_exportType_flags (o : MapOrder) (csv : CsvCodec) (ts : List String)
    (st : PassState) :
    (ts.foldl (exportType o csv) st).fs.denyCreate = st.fs.denyCreate ∧
      (ts.foldl (exportType o csv) st).fs.denyOpen = st.fs.denyOpen ∧
      (ts.foldl (exportType o csv) st).fs.denyWrite = st.fs.denyWrite := by
  induction ts generalizing st with
  | nil => exact ⟨rfl, rfl, rfl⟩
  | cons t ts ih =>
    rw [List.foldl_cons]
    obtain ⟨h1, h2, h3⟩ := ih (exportType o csv st t)
    obtain ⟨g1, g2, g3⟩ := exportType_flags o csv st t
    exact ⟨h1.trans g1, h2.trans g2, h3.trans g3⟩

theorem recordsOf_congr (o : MapOrder) (csv : CsvCodec) (fs fs2 : FileSystem)
    (t : String) (events : List Event)
    (hfiles : fs2.files (filePathOf t) = fs.files (filePathOf t))
    (hopen : fs2.denyOpen = fs.denyOpen) :
    recordsOf o csv fs2 t events = recordsOf o csv fs t events := by
  unfold recordsOf
  rw [readExistingCSV_congr csv fs fs2 (filePathOf t) hfiles hopen]

theorem files_writeAt_congr (fs fs2 : FileSystem) (p : String) (off : Nat)
    (data : List Char) (hfiles : fs2.files p = fs.files p)
    (hwr : fs2.denyWrite p = fs.denyWrite p) :
    (fs2.writeAt p off data).files p = (fs.writeAt p off data).files p := by
  rw [files_writeAt_same, files_writeAt_same, hfiles, hwr]

/-- A type whose file can be created and written, and whose path no other type
with pending events has, ends the pass, once the deferred flushes have run,
with the header, the rows read from the file found at the start and its own
rows in its file. -/
theorem foldl_exportType_file (o : MapOrder) (csv : CsvCodec) (ts : List String)
    (st : PassState) (t : String) (hnd : ts.Nodup) (ht : t ∈ ts)
    (hB : pending st.eventsByType t ≠ [])
    (hcr : st.fs.denyCreate (filePathOf t) = false)
    (hwr : st.fs.denyWrite (filePathOf t) = false)
    (hpath : ∀ t', t' ≠ t → pending st.eventsByType t' ≠ [] →
      filePathOf t' ≠ filePathOf t)
    (hdef : ∀ w ∈ st.deferred, w.path ≠ filePathOf t) :
    ((ts.foldl (exportType o csv) st).fs.runDeferred
        (ts.foldl (exportType o csv) st).deferred).files (filePathOf t)
      = some (csv.encode (recordsOf o csv st.fs t (pending st.eventsByType t))) := by
  induction ts generalizing st with
  | nil => simp at ht
  | cons t0 ts ih =>
    rw [List.nodup_cons] at hnd
    rw [List.foldl_cons]
    by_cases h0 : t0 = t
    · subst h0
      have hstep := exportType_created o csv st t0 hB hcr
      obtain ⟨-, -, hframe⟩ := foldl_exportType_frame o csv ts (exportType o csv st t0)
      obtain ⟨added, hadd, hpaths⟩ :=
        foldl_exportType_deferred o csv ts (exportType o csv st t0)
      have hother : ∀ t' ∈ ts, pending (exportType o csv st t0).eventsByType t' ≠ [] →
          filePathOf t' ≠ filePathOf t0 := by
        intro t' ht' hne
        have htt : t0 ≠ t' := fun h => hnd.1 (h ▸ ht')
        rw [exportType_pending_other o csv st t0 t' htt] at hne
        exact hpath t' (fun h => htt h.symm) hne
      have hadded : ∀ w ∈ added, w.path ≠ filePathOf t0 := by
        intro w hw
        obtain ⟨t', ht', hne, hp⟩ := hpaths w hw
        rw [hp]
        exact hother t' ht' hne
      have hfilesLoop := hframe (filePathOf t0) hother
      have hflagsLoop := (foldl_exportType_flags o csv ts (exportType o csv st t0)).2.2
      rw [hadd, runDeferred_append]
      have hdefer1 : (exportType o csv st t0).deferred
          = { path := filePathOf t0
              offset := ((csv.encode (recordsOf o csv st.fs t0
                (pending st.eventsByType t0))).data.take
                (csv.spill (recordsOf o csv st.fs t0 (pending st.eventsByType t0)))).length
              buffered := (csv.encode (recordsOf o csv st.fs t0
                (pending st.eventsByType t0))).data.drop
                (csv.spill (recordsOf o csv st.fs t0
                  (pending st.eventsByType t0))) } :: st.deferred := by
        rw [hstep]
      rw [hdefer1, runDeferred_cons, files_runDeferred_other _ _ _ hdef]
      have hcongr := files_writeAt_congr (exportType o csv st t0).fs
        (((ts.foldl (exportType o csv) (exportType o csv st t0)).fs).runDeferred added)
        (filePathOf t0)
        ((csv.encode (recordsOf o csv st.fs t0 (pending st.eventsByType t0))).data.take
          (csv.spill (recordsOf o csv st.fs t0 (pending st.eventsByType t0)))).length
        ((csv.encode (recordsOf o csv st.fs t0 (pending st.eventsByType t0))).data.drop
          (csv.spill (recordsOf o csv st.fs t0 (pending st.eventsByType t0))))
        (by rw [files_runDeferred_other _ _ _ hadded, hfilesLoop])
        (by rw [(flags_runDeferred added _).2.2.1, hflagsLoop])
      rw [hcongr]
      have hfs1 : (exportType o csv st t0).fs
          = (st.fs.put (filePathOf t0) "").writeAt (filePathOf t0) 0
              ((csv.encode (recordsOf o csv st.fs t0 (pending st.eventsByType t0))).data.take
                (csv.spill (recordsOf o csv st.fs t0 (pending st.eventsByType t0)))) := by
        rw [hstep]
      rw [hfs1]
      exact files_create_spill_flush st.fs (filePathOf t0) _ _ hwr
    · have ht' : t ∈ ts := by
        rcases List.mem_cons.mp ht with h | h
        · exact absurd h.symm h0
        · exact h
      have hpend : pending (exportType o csv st t0).eventsByType t
          = pending st.eventsByType t := exportType_pending_other o csv st t0 t h0
      have hfiles : (exportType o csv st t0).fs.files (filePathOf t)
          = st.fs.files (filePathOf t) := by
        rcases exportType_cases o csv st t0 with
          ⟨-, h⟩ | ⟨-, -, -, h, -⟩ | ⟨hB0, -, -, ⟨bytes, h⟩, -⟩
        · rw [h]
        · rw [h]
        · rw [h]
          exact files_create_spill_other st.fs _ bytes _ (hpath t0 h0 hB0)
      obtain ⟨hf1, hf2, hf3⟩ := exportType_flags o csv st t0
      have hrec := recordsOf_congr o csv st.fs (exportType o csv st t0).fs t
        (pending st.eventsByType t) hfiles hf2
      have := ih (exportType o csv st t0) hnd.2 ht' (by rw [hpend]; exact hB)
        (by rw [hf1]; exact hcr) (by rw [hf3]; exact hwr)
        (by
          intro t' htt hne
          by_cases h1 : t0 = t'
          · subst h1
            rcases exportType_cases o csv st t0 with
              ⟨hB0, h⟩ | ⟨hB0, -, -, -, -⟩ | ⟨-, -, h, -, -⟩
            · rw [h, hB0] at hne
              exact absurd rfl hne
            · exact hpath t0 htt hB0
            · rw [h, pending_set] at hne
              simp at hne
          · rw [exportType_pending_other o csv st t0 t' h1] at hne
            exact hpath t' htt hne)
        (by
          intro w hw
          rcases exportType_deferred o csv st t0 with h | ⟨hB0, w0, hw0, h⟩
          · rw [h] at hw
            exact hdef w hw
          · rw [h] at hw
            rcases List.mem_cons.mp hw with h1 | h1
            · rw [h1, hw0]
              exact hpath t0 h0 hB0
            · exact hdef w h1)
      rw [this, hpend, hrec]

/-- The pass when the directory is made, as the loop over the visited types
followed by the deferred flushes. -/
theorem saveCSV_eq_of_mkdir (o : MapOrder) (csv : CsvCodec) (eventsByType : Store)
    (fs : FileSystem) (hlen : GoMap.len eventsByType ≠ 0)
    (hmk : fs.denyMkdir csvDir = false) :
    (saveCSV o csv eventsByType fs).eventsByType
        = ((o.visit (GoMap.keys eventsByType)).foldl (exportType o csv)
            { eventsByType := eventsByType
              fs := { fs with dirs := fun d => if d = csvDir then true else fs.dirs d }
              updatedFiles := [], log := [], trace := [.mkdirAll csvDir]
              deferred := [] }).eventsByType ∧
      (saveCSV o csv eventsByType fs).updatedFiles
        = ((o.visit (GoMap.keys eventsByType)).foldl (exportType o csv)
            { eventsByType := eventsByType
              fs := { fs with dirs := fun d => if d = csvDir then true else fs.dirs d }
              updatedFiles := [], log := [], trace := [.mkdirAll csvDir]
              deferred := [] }).updatedFiles ∧
      (saveCSV o csv eventsByType fs).fs
        = ((o.visit (GoMap.keys eventsByType)).foldl (exportType o csv)
            { eventsByType := eventsByType
              fs := { fs with dirs := fun d => if d = csvDir then true else fs.dirs d }
              updatedFiles := [], log := [], trace := [.mkdirAll csvDir]
              deferred := [] }).fs.runDeferred
          ((o.visit (GoMap.keys eventsByType)).foldl (exportType o csv)
            { eventsByType := eventsByType
              fs := { fs with dirs := fun d => if d = csvDir then true else fs.dirs d }
              updatedFiles := [], log := [], trace := [.mkdirAll csvDir]
              deferred := [] }).deferred := by
  simp [saveCSV, hlen, FileSystem.mkdirAll, hmk]

theorem mem_keys_of_pending_ne_nil (m : Store) (t : String) (h : pending m t ≠ []) :
    t ∈ GoMap.keys m := by
  by_contra hnot
  exact h (pending_eq_nil_of_not_mem_keys m t hnot)

theorem len_ne_zero_of_pending_ne_nil (m : Store) (t : String) (h : pending m t ≠ []) :
    GoMap.len m ≠ 0 := by
  intro hlen
  have hkeys : GoMap.keys m = [] := List.length_eq_zero.mp hlen
  have := mem_keys_of_pending_ne_nil m t h
  simp [hkeys] at this

/-- In a pass that made the directory, the file of a type with pending events
that can be created and written, and whose path no other type with pending
events has, holds at the return of `saveCSV` the records handed to its
writer. -/
theorem saveCSV_file_of_type (o : MapOrder) (csv : CsvCodec) (eventsByType : Store)
    (fs : FileSystem) (t : String)
    (hmk : fs.denyMkdir csvDir = false)
    (hB : pending eventsByType t ≠ [])
    (hcr : fs.denyCreate (filePathOf t) = false)
    (hpath : ∀ t', t' ≠ t → pending eventsByType t' ≠ [] → filePathOf t' ≠ filePathOf t)
    (hwr : fs.denyWrite (filePathOf t) = false) :
    (saveCSV o csv eventsByType fs).fs.files (filePathOf t)
      = some (csv.encode (recordsOf o csv fs t (pending eventsByType t))) := by
  have hlen := len_ne_zero_of_pending_ne_nil eventsByType t hB
  have hmem : t ∈ o.visit (GoMap.keys eventsByType) :=
    (MapOrder.mem_visit o _ t).mpr (mem_keys_of_pending_ne_nil eventsByType t hB)
  rw [(saveCSV_eq_of_mkdir o csv eventsByType fs hlen hmk).2.2]
  exact foldl_exportType_file o csv _
    { eventsByType := eventsByType
      fs := { fs with dirs := fun d => if d = csvDir then true else fs.dirs d }
      updatedFiles := [], log := [], trace := [.mkdirAll csvDir], deferred := [] }
    t (nodup_visit_keys o eventsByType) hmem hB hcr hwr hpath (by simp)

/-- Two types with one export path, each with one pending event and no prior
file: both writers are flushed at the return of `saveCSV`, the last deferred
first, each from the start of the file, so the bytes of the type exported first
end over those of the other. -/
theorem shared_path_pass_sample :
    filePathOf "a" = filePathOf "./a" ∧
      (saveCSV MapOrder.listed CsvCodec.plain aliasBothStore FileSystem.blank).fs.files
          "csv_exports/a.csv" = some "eventType\na\na\n" ∧
      (saveCSV MapOrder.backwards CsvCodec.plain aliasBothStore FileSystem.blank).fs.files
          "csv_exports/a.csv" = some "eventType\n./a\n" := by
  decide

/-! ## What one export writes -/

theorem getHeaders_click_perm (o : MapOrder) :
    (getHeaders o [clickAB, clickBC]).Perm ["a", "b", "c", "eventType"] := by
  rw [List.perm_ext_iff_of_nodup (nodup_getHeaders o _) (by decide)]
  intro x
  rw [mem_getHeaders]
  simp only [List.mem_cons, List.mem_singleton, exists_eq_or_imp, List.not_mem_nil,
    false_and, exists_false, or_false, GoMap.get?_isSome_iff, clickAB, clickBC,
    List.map_cons, List.map_nil, exists_eq_left]
  tauto

theorem recordsOf_click (o : MapOrder) (csv : CsvCodec) (fs : FileSystem)
    (hnone : fs.openFile (filePathOf "click") = none) :
    recordsOf o csv fs "click" [clickAB, clickBC]
      = [getHeaders o [clickAB, clickBC],
          (getHeaders o [clickAB, clickBC]).map (freshCell clickAB),
          (getHeaders o [clickAB, clickBC]).map (freshCell clickBC)] := by
  simp [recordsOf, readExistingCSV, hnone, reconcile_nil_left, exportRecords_eq,
    eventRow_fresh]

/-- The pass over the two ingested `click` events and no prior file, whatever the
order of map iteration and the codec. -/
theorem saveCSV_clickStore (o : MapOrder) (csv : CsvCodec) :
    (saveCSV o csv clickStore FileSystem.blank).trace
        = [.mkdirAll csvDir, .openFile (filePathOf "click"), .create (filePathOf "click"),
            .write (filePathOf "click")
              [getHeaders o [clickAB, clickBC],
                (getHeaders o [clickAB, clickBC]).map (freshCell clickAB),
                (getHeaders o [clickAB, clickBC]).map (freshCell clickBC)]] ∧
      (saveCSV o csv clickStore FileSystem.blank).fs.files (filePathOf "click")
        = some (csv.encode
            [getHeaders o [clickAB, clickBC],
              (getHeaders o [clickAB, clickBC]).map (freshCell clickAB),
              (getHeaders o [clickAB, clickBC]).map (freshCell clickBC)]) := by
  have hkeys : o.visit (GoMap.keys clickStore) = ["click"] :=
    List.Perm.eq_singleton (o.perm _)
  have hlen : GoMap.len clickStore ≠ 0 := by decide
  have hB : pending clickStore "click" = [clickAB, clickBC] := rfl
  have hBne : pending clickStore "click" ≠ [] := by simp [hB]
  refine ⟨?_, ?_⟩
  · unfold saveCSV
    simp only [hlen, if_false, FileSystem.mkdirAll, FileSystem.blank, Bool.false_eq_true,
      hkeys, List.foldl_cons, List.foldl_nil]
    rw [exportType_created o csv _ "click" hBne rfl]
    simp only [hB]
    rw [recordsOf_click]
    · simp
    · rfl
  · have hfile := saveCSV_file_of_type o csv clickStore FileSystem.blank "click" rfl hBne rfl
      (by
        intro t' htt hne
        exfalso
        apply hne
        have h1 : ¬ "click" = t' := fun h => htt h.symm
        simp [pending, clickStore_eq, GoMap.get?, h1])
      rfl
    rw [hfile, hB, recordsOf_click o csv FileSystem.blank rfl]

/-- C6: counterexample.  Whatever the order of map iteration and the codec, the
export of the two `click` events does not write the header `a,b,c` with the
rows `1,2,` and `,3,4`: the header has the column `eventType` as well.  And for
a batch of the two events without their `eventType` field, the iteration order
`backwards` gives the header `c,a,b`. -/
theorem round_trip_not_abc :
    (¬ ∃ (o : MapOrder) (csv : CsvCodec),
        IOCall.write (filePathOf "click") [["a", "b", "c"], ["1", "2", ""], ["", "3", "4"]]
          ∈ (saveCSV o csv clickStore FileSystem.blank).trace) ∧
      (saveCSV MapOrder.backwards CsvCodec.plain
          [("click", [[("a", Value.digit 1), ("b", Value.digit 2)],
            [("b", Value.digit 3), ("c", Value.digit 4)]])]
          FileSystem.blank).fs.files (filePathOf "click")
        = some "c,a,b\n,1,2\n4,,3\n" := by
  refine ⟨?_, by decide⟩
  rintro ⟨o, csv, hmem⟩
  rw [(saveCSV_clickStore o csv).1] at hmem
  simp only [List.mem_cons, List.mem_singleton, List.not_mem_nil, or_false] at hmem
  rcases hmem with h | h | h | h
  · cases h
  · cases h
  · cases h
  · injection h with _ hrec
    injection hrec with hhdr _
    have hin : "eventType" ∈ getHeaders o [clickAB, clickBC] :=
      (getHeaders_click_perm o).mem_iff.mpr (by decide)
    rw [← hhdr] at hin
    revert hin
    decide

/-- C6 (as amended): the export of the two ingested `click` events with no prior
file writes a header that arranges `a, b, c, eventType` in the order of map
iteration, then one row per event holding under each name the value of the
event: `1, 2, "", click` and `"", 3, 4, click` under `a, b, c, eventType`.  When
the names are visited in ascending order the file is `a,b,c,eventType`,
`1,2,,click`, `,3,4,click`. -/
theorem round_trip_click (o : MapOrder) (csv : CsvCodec) :
    (∃ hdr : List String, hdr.Perm ["a", "b", "c", "eventType"] ∧
        (saveCSV o csv clickStore FileSystem.blank).trace
          = [.mkdirAll csvDir, .openFile (filePathOf "click"), .create (filePathOf "click"),
              .write (filePathOf "click")
                [hdr, hdr.map (freshCell clickAB), hdr.map (freshCell clickBC)]] ∧
        (saveCSV o csv clickStore FileSystem.blank).fs.files (filePathOf "click")
          = some (csv.encode
              [hdr, hdr.map (freshCell clickAB), hdr.map (freshCell clickBC)])) ∧
      ["a", "b", "c", "eventType"].map (freshCell clickAB) = ["1", "2", "", "click"] ∧
      ["a", "b", "c", "eventType"].map (freshCell clickBC) = ["", "3", "4", "click"] ∧
      (saveCSV MapOrder.ascending csv clickStore FileSystem.blank).trace
        = [.mkdirAll csvDir, .openFile (filePathOf "click"), .create (filePathOf "click"),
            .write (filePathOf "click")
              [["a", "b", "c", "eventType"], ["1", "2", "", "click"],
                ["", "3", "4", "click"]]] ∧
      (saveCSV MapOrder.ascending CsvCodec.plain clickStore FileSystem.blank).fs.files
          "csv_exports/click.csv"
        = some "a,b,c,eventType\n1,2,,click\n,3,4,click\n" := by
  refine ⟨⟨getHeaders o [clickAB, clickBC], getHeaders_click_perm o,
    (saveCSV_clickStore o csv).1, (saveCSV_clickStore o csv).2⟩, by decide, by decide, ?_,
    by decide⟩
  rw [(saveCSV_clickStore MapOrder.ascending csv).1]
  have h : getHeaders MapOrder.ascending [clickAB, clickBC] = ["a", "b", "c", "eventType"] := by
    decide
  rw [h]
  decide

/-! ## Independence of the types within a pass -/

/-- C11: in a pass that made the directory, a type with pending events whose file
can be created is cleared and reported whatever happens to the other types,
and when no other type with pending events has its path and the write does not
fail its file holds the header, the rows of the file found and its own rows.
A type whose file cannot be created leaves the store, the files and the list
of updated files as they were for the types that follow.  With `click` and
`purchase` pending and the file of `click` refused or unwritable, the file of
`purchase` is written with its row and `purchase.csv` is reported. -/
theorem export_of_type_independent (o : MapOrder) (csv : CsvCodec)
    (eventsByType : Store) (fs : FileSystem) (t : String)
    (hmk : fs.denyMkdir csvDir = false)
    (hB : pending eventsByType t ≠ [])
    (hcr : fs.denyCreate (filePathOf t) = false) :
    pending (saveCSV o csv eventsByType fs).eventsByType t = [] ∧
      fileNameOf t ∈ (saveCSV o csv eventsByType fs).updatedFiles ∧
      ((∀ t', t' ≠ t → pending eventsByType t' ≠ [] → filePathOf t' ≠ filePathOf t) →
        fs.denyWrite (filePathOf t) = false →
        (saveCSV o csv eventsByType fs).fs.files (filePathOf t)
          = some (csv.encode (exportRecords
              (reconcile o (readExistingCSV csv fs (filePathOf t)).2 (pending eventsByType t))
              (readExistingCSV csv fs (filePathOf t)).1
              (pending eventsByType t)))) ∧
      (∀ (st : PassState) (t' : String), pending st.eventsByType t' ≠ [] →
        st.fs.denyCreate (filePathOf t') = true →
        (exportType o csv st t').eventsByType = st.eventsByType ∧
          (exportType o csv st t').fs = st.fs ∧
          (exportType o csv st t').updatedFiles = st.updatedFiles) ∧
      (saveCSV MapOrder.listed CsvCodec.plain shopStore clickRefusedFs).fs.files
          (filePathOf "purchase") = some "eventType,sku\npurchase,k1\n" ∧
      (saveCSV MapOrder.listed CsvCodec.plain shopStore clickRefusedFs).updatedFiles
        = ["purchase.csv"] ∧
      (saveCSV MapOrder.listed CsvCodec.plain shopStore clickUnwritableFs).fs.files
          (filePathOf "purchase") = some "eventType,sku\npurchase,k1\n" ∧
      "purchase.csv" ∈
        (saveCSV MapOrder.listed CsvCodec.plain shopStore clickUnwritableFs).updatedFiles := by
  have hlen := len_ne_zero_of_pending_ne_nil eventsByType t hB
  obtain ⟨e1, e2, -⟩ := saveCSV_eq_of_mkdir o csv eventsByType fs hlen hmk
  have hmem : t ∈ o.visit (GoMap.keys eventsByType) :=
    (MapOrder.mem_visit o _ t).mpr (mem_keys_of_pending_ne_nil eventsByType t hB)
  obtain ⟨c1, c2⟩ := foldl_exportType_clears o csv _
    { eventsByType := eventsByType
      fs := { fs with dirs := fun d => if d = csvDir then true else fs.dirs d }
      updatedFiles := [], log := [], trace := [.mkdirAll csvDir], deferred := [] }
    t (nodup_visit_keys o eventsByType) hmem hB hcr
  refine ⟨by rw [e1]; exact c1, by rw [e2]; exact c2, ?_, ?_, by decide, by decide, by decide,
    by decide⟩
  · intro hpath hwr
    exact saveCSV_file_of_type o csv eventsByType fs t hmk hB hcr hpath hwr
  · intro st t' hB' hc
    rw [exportType_refused o csv st t' hB' hc]
    exact ⟨rfl, rfl, rfl⟩

/-- Witness of C11: `purchase` in the pass over `shopStore` with the file of
`click` refused. -/
theorem export_of_type_independent_witness :
    clickRefusedFs.denyMkdir csvDir = false ∧
      clickRefusedFs.denyCreate (filePathOf "purchase") = false ∧
      pending (saveCSV MapOrder.listed CsvCodec.plain shopStore clickRefusedFs).eventsByType
        "purchase" = [] ∧
      fileNameOf "purchase" ∈
        (saveCSV MapOrder.listed CsvCodec.plain shopStore clickRefusedFs).updatedFiles :=
  ⟨rfl, by decide,
    (export_of_type_independent MapOrder.listed CsvCodec.plain shopStore clickRefusedFs
      "purchase" rfl (by simp [pending, shopStore, GoMap.get?]) (by decide)).1,
    (export_of_type_independent MapOrder.listed CsvCodec.plain shopStore clickRefusedFs
      "purchase" rfl (by simp [pending, shopStore, GoMap.get?]) (by decide)).2.1⟩

/-! ## Failures of one type -/

/-- C12: the code at a failing write.  With `click` pending and every write to
its file failing after the file was created, the pass clears the pending
events of `click` and reports `click.csv`, and the file is left truncated.
When the file cannot be created the pending events are kept and the file is
not reported. -/
theorem failed_write_clears_pending :
    clickUnwritableFs.denyCreate (filePathOf "click") = false ∧
      clickUnwritableFs.denyWrite (filePathOf "click") = true ∧
      pending clickStore "click" = [clickAB, clickBC] ∧
      pending (saveCSV MapOrder.listed CsvCodec.plain clickStore
        clickUnwritableFs).eventsByType "click" = [] ∧
      (saveCSV MapOrder.listed CsvCodec.plain clickStore clickUnwritableFs).updatedFiles
        = ["click.csv"] ∧
      (saveCSV MapOrder.listed CsvCodec.plain clickStore clickUnwritableFs).fs.files
        (filePathOf "click") = some "" ∧
      pending (saveCSV MapOrder.listed CsvCodec.plain clickStore
        clickRefusedFs).eventsByType "click" = [clickAB, clickBC] ∧
      (saveCSV MapOrder.listed CsvCodec.plain clickStore clickRefusedFs).updatedFiles = [] :=
  ⟨by decide, by decide, rfl, rfl, by decide, by decide, rfl, by decide⟩

/-! ## A pass with nothing pending -/

/-- C13: counterexample.  In the store left by an export of `click`, which keeps
the type with no pending event, the pass calls `MkdirAll`, which makes the
directory `csv_exports` that was not there, and logs that no file was updated,
not that there is no event to export. -/
theorem cleared_store_pass_makes_directory :
    (∀ t, pending ([("click", [])] : Store) t = []) ∧
      (saveCSV MapOrder.listed CsvCodec.plain [("click", [])] FileSystem.blank).trace
        = [.mkdirAll "csv_exports"] ∧
      FileSystem.blank.dirs "csv_exports" = false ∧
      (saveCSV MapOrder.listed CsvCodec.plain [("click", [])] FileSystem.blank).fs.dirs
        "csv_exports" = true ∧
      (saveCSV MapOrder.listed CsvCodec.plain [("click", [])] FileSystem.blank).log
        = [.noFilesUpdated] := by
  refine ⟨?_, by decide, rfl, by decide, rfl⟩
  intro t
  by_cases h : "click" = t
  · simp [pending, GoMap.get?, h]
  · simp [pending, GoMap.get?, h]

/-- C13 (as amended): when no type has a pending event the pass creates and
rewrites no file, reports no file and leaves the store.  On the empty store it
logs that there is no event to export and makes no call on the file system.
On a store that still names a type it calls `MkdirAll` on the output directory
and nothing else; it then logs that no file was updated and the directory
exists, or logs the directory error and leaves the file system as it was. -/
theorem idle_pass (o : MapOrder) (csv : CsvCodec) (eventsByType : Store)
    (fs : FileSystem) (hidle : ∀ t, pending eventsByType t = []) :
    (saveCSV o csv eventsByType fs).fs.files = fs.files ∧
      (saveCSV o csv eventsByType fs).updatedFiles = [] ∧
      (saveCSV o csv eventsByType fs).eventsByType = eventsByType ∧
      (GoMap.len eventsByType = 0 →
        (saveCSV o csv eventsByType fs).log = [.noEvents] ∧
          (saveCSV o csv eventsByType fs).trace = [] ∧
          (saveCSV o csv eventsByType fs).fs = fs) ∧
      (GoMap.len eventsByType ≠ 0 →
        (saveCSV o csv eventsByType fs).trace = [.mkdirAll csvDir] ∧
          (fs.denyMkdir csvDir = false →
            (saveCSV o csv eventsByType fs).log = [.noFilesUpdated] ∧
              (saveCSV o csv eventsByType fs).fs.dirs csvDir = true) ∧
          (fs.denyMkdir csvDir = true →
            (saveCSV o csv eventsByType fs).log = [.mkdirError] ∧
              (saveCSV o csv eventsByType fs).fs = fs)) := by
  obtain ⟨i1, i2, i3, -⟩ := saveCSV_idle o csv eventsByType fs hidle
  refine ⟨i2, i1, i3, ?_, ?_⟩
  · intro hlen
    simp [saveCSV, hlen]
  · intro hlen
    cases hmk : fs.denyMkdir csvDir with
    | true => simp [saveCSV, hlen, FileSystem.mkdirAll, hmk]
    | false =>
      simp only [saveCSV, hlen, if_false, FileSystem.mkdirAll, hmk, Bool.false_eq_true]
      rw [foldl_exportType_idle o csv _ _ hidle]
      simp [FileSystem.runDeferred]

/-- Witness of C13 (as amended): the empty store on the empty file system. -/
theorem idle_pass_witness :
    (∀ t, pending ([] : Store) t = []) ∧
      (saveCSV MapOrder.listed CsvCodec.plain [] FileSystem.blank).updatedFiles = [] :=
  ⟨fun _ => rfl, (idle_pass MapOrder.listed CsvCodec.plain [] FileSystem.blank
    (fun _ => rfl)).2.1⟩

/-! ## The path of the export file -/

theorem splitChar_ne_nil (sep : Char) (l : List Char) : splitChar sep l ≠ [] := by
  cases l with
  | nil => simp [splitChar]
  | cons c cs =>
    unfold splitChar
    split
    · simp
    · split <;> simp

theorem splitChar_of_not_mem (sep : Char) (l : List Char) (h : sep ∉ l) :
    splitChar sep l = [l] := by
  induction l with
  | nil => rfl
  | cons c cs ih =>
    simp only [List.mem_cons, not_or] at h
    unfold splitChar
    rw [ih h.2]
    have hc : ¬ c = sep := fun e => h.1 e.symm
    simp [hc]

theorem splitChar_append (sep : Char) (l1 l2 : List Char) (h : sep ∉ l1) :
    splitChar sep (l1 ++ sep :: l2) = l1 :: splitChar sep l2 := by
  induction l1 with
  | nil =>
    rw [List.nil_append, splitChar]
    cases hs : splitChar sep l2 with
    | nil => exact absurd hs (splitChar_ne_nil sep l2)
    | cons seg segs => simp
  | cons c cs ih =>
    simp only [List.mem_cons, not_or] at h
    rw [List.cons_append, splitChar, ih h.2]
    have hc : ¬ c = sep := fun e => h.1 e.symm
    simp [hc]

/-- The export path of a type name without a slash. -/
theorem filePathOf_of_no_slash (t : String) (h : '/' ∉ t.data) :
    filePathOf t = csvDir ++ "/" ++ fileNameOf t := by
  have hname : '/' ∉ t.data ++ ['.', 'c', 's', 'v'] := by
    simp only [List.mem_append, not_or]
    exact ⟨h, by decide⟩
  have hdata : (csvDir ++ "/" ++ fileNameOf t).data
      = "csv_exports".data ++ '/' :: (t.data ++ ['.', 'c', 's', 'v']) := by
    simp [csvDir, fileNameOf, String.data_append]
  have hsplit : splitChar '/' (csvDir ++ "/" ++ fileNameOf t).data
      = ["csv_exports".data, t.data ++ ['.', 'c', 's', 'v']] := by
    rw [hdata, splitChar_append '/' _ _ (by decide), splitChar_of_not_mem '/' _ hname]
  have hlen : ∀ l : List Char, l.length < 4 → t.data ++ ['.', 'c', 's', 'v'] ≠ l := by
    intro l hl heq
    have := congrArg List.length heq
    simp at this
    omega
  have h1 := hlen [] (by decide)
  have h2 := hlen ['.'] (by decide)
  have h3 := hlen ['.', '.'] (by decide)
  have hdir : csvDir ≠ "" := by decide
  have hhead : (csvDir ++ "/" ++ fileNameOf t).data.head? ≠ some '/' := by
    intro hc
    rw [hdata] at hc
    have hcons : "csv_exports".data = 'c' :: "sv_exports".data := rfl
    rw [hcons] at hc
    simp at hc
  unfold filePathOf filepathJoin
  rw [if_pos hdir]
  unfold filepathClean
  simp only [hsplit, List.foldl_cons, List.foldl_nil]
  have hstep1 : cleanStep (decide ((csvDir ++ "/" ++ fileNameOf t).data.head? = some '/')) []
      "csv_exports".data = ["csv_exports".data] := by
    unfold cleanStep
    rw [if_neg (by decide), if_neg (by decide)]
  rw [hstep1]
  have hstep2 : cleanStep (decide ((csvDir ++ "/" ++ fileNameOf t).data.head? = some '/'))
      ["csv_exports".data] (t.data ++ ['.', 'c', 's', 'v'])
      = [t.data ++ ['.', 'c', 's', 'v'], "csv_exports".data] := by
    unfold cleanStep
    rw [if_neg (by simp [h1, h2]), if_neg h3]
  rw [hstep2]
  simp only [hhead, decide_False, Bool.false_eq_true, if_false, List.reverse_cons,
    List.reverse_nil, List.nil_append, List.singleton_append]
  rw [if_neg (by simp)]
  apply String.ext
  rw [hdata]
  simp [List.intercalate]

/-- C14: counterexample.  The file name of the type `../x` is `../x.csv`, which
has a path separator and a parent-directory component, and its export path is
`x.csv`, beside the directory `csv_exports` and not in it. -/
theorem export_path_escapes :
    fileNameOf "../x" = "../x.csv" ∧
      '/' ∈ (fileNameOf "../x").data ∧
      filePathOf "../x" = "x.csv" ∧
      filePathOf "a/b" = "csv_exports/a/b.csv" ∧
      filePathOf "../../etc/x" = "../etc/x.csv" := by
  decide

/-- C14 (as amended): the file name of a type is its name followed by `.csv`,
as it is; when the name has no slash the file name has none and the export
path is the file of that name in `csv_exports`. -/
theorem export_path_of_plain_name (t : String) (h : '/' ∉ t.data) :
    fileNameOf t = t ++ ".csv" ∧
      '/' ∉ (fileNameOf t).data ∧
      filePathOf t = csvDir ++ "/" ++ fileNameOf t ∧
      filePathOf t = "csv_exports/" ++ t ++ ".csv" := by
  refine ⟨rfl, ?_, filePathOf_of_no_slash t h, ?_⟩
  · simp only [fileNameOf, String.data_append, List.mem_append, not_or]
    exact ⟨h, by decide⟩
  · rw [filePathOf_of_no_slash t h]
    apply String.ext
    simp [csvDir, fileNameOf, String.data_append]

/-- Witness of C14 (as amended): the type `click`. -/
theorem export_path_of_plain_name_witness :
    '/' ∉ "click".data ∧ filePathOf "click" = "csv_exports/" ++ "click" ++ ".csv" :=
  ⟨by decide, (export_path_of_plain_name "click" (by decide)).2.2.2⟩

/-! ## The order of the new names -/

theorem contains_append_singleton (ex : List String) (h x : String) (hx : x ≠ h) :
    contains (ex ++ [h]) x = contains ex x := by
  rw [Bool.eq_iff_iff, contains_iff, contains_iff]
  simp [hx]

theorem mergeHeaders_filter (headers existingHeaders : List String) (hnd : headers.Nodup) :
    mergeHeaders existingHeaders headers
      = existingHeaders ++ headers.filter (fun name => !contains existingHeaders name) := by
  induction headers generalizing existingHeaders with
  | nil => simp [mergeHeaders]
  | cons h headers ih =>
    rw [List.nodup_cons] at hnd
    have hrest := ih
    unfold mergeHeaders at hrest ⊢
    rw [List.foldl_cons]
    cases hc : contains existingHeaders h with
    | true =>
      simp only [Bool.not_true, Bool.false_eq_true, if_false]
      rw [hrest existingHeaders hnd.2, List.filter_cons]
      simp [hc]
    | false =>
      simp only [Bool.not_false, if_true]
      rw [hrest (existingHeaders ++ [h]) hnd.2, List.filter_cons]
      simp only [hc, Bool.not_false, if_true, List.append_assoc, List.singleton_append]
      congr 2
      apply List.filter_congr
      intro x hx
      have hxh : x ≠ h := fun e => hnd.1 (e ▸ hx)
      rw [contains_append_singleton existingHeaders h x hxh]

theorem getHeaders_eq_visit (o : MapOrder) (B : List Event) :
    getHeaders o B = o.visit (headerSet o B) := by
  unfold getHeaders headerSet
  simp [foldl_append_singleton]

/-- C16: counterexample.  In the batch `batchAThenB` the name `a` is met before
`b`, whatever the order of the fields of an event; a run that ranges over the
set of names last to first puts `b` before `a` in the header, and a run that
ranges over it first to last gives another header for the same batch. -/
theorem new_names_not_in_discovery_order :
    headerSet MapOrder.backwards batchAThenB = ["a", "b"] ∧
      reconcile MapOrder.backwards [] batchAThenB = ["b", "a"] ∧
      reconcile MapOrder.listed [] batchAThenB = ["a", "b"] ∧
      reconcile MapOrder.backwards [] batchAThenB ≠ reconcile MapOrder.listed [] batchAThenB ∧
      reconcile MapOrder.backwards ["id"] batchAThenB = ["id", "b", "a"] := by
  decide

/-- C16 (as amended): the names of the reconciled header that are not in `H` are
the names `getHeaders` returns that `H` lacks, in the order in which the run
ranges over the set of the names met in the batch: a rearrangement of that set,
which holds each field name of the batch once.  They are in the order in which
they were first met when the run ranges over the set in that order, and the
header is a function of `H`, the batch and the order of iteration. -/
theorem new_names_in_iteration_order (o : MapOrder) (H : List String) (B : List Event) :
    reconcile o H B
        = H ++ (o.visit (headerSet o B)).filter (fun name => !contains H name) ∧
      getHeaders o B = o.visit (headerSet o B) ∧
      (o.visit (headerSet o B)).Perm (headerSet o B) ∧
      (headerSet o B).Nodup ∧
      (∀ name, name ∈ headerSet o B ↔ ∃ e ∈ B, (GoMap.get? e name).isSome) ∧
      (o.visit (headerSet o B) = headerSet o B →
        reconcile o H B = H ++ (headerSet o B).filter (fun name => !contains H name)) := by
  have hmerge : reconcile o H B
      = H ++ (o.visit (headerSet o B)).filter (fun name => !contains H name) := by
    unfold reconcile
    rw [mergeHeaders_filter _ _ (nodup_getHeaders o B), getHeaders_eq_visit]
  refine ⟨hmerge, getHeaders_eq_visit o B, o.perm _, nodup_headerSet o B [] List.nodup_nil,
    ?_, ?_⟩
  · intro name
    have := mem_headerSet o B [] name
    simpa [headerSet] using this
  · intro hsame
    rw [hmerge, hsame]

/-! ## The invariant of the store -/

theorem handleEvents_store_cases (eventsByType : Store) (method : String)
    (decoded : Except String (List Event)) :
    (handleEvents eventsByType method decoded).1 = eventsByType ∨
      ∃ newEvents : List Event, (handleEvents eventsByType method decoded).1
        = (newEvents.foldl ingest (eventsByType, [])).1 := by
  unfold handleEvents
  split
  · exact Or.inl rfl
  · cases decoded with
    | error err => exact Or.inl rfl
    | ok newEvents => exact Or.inr ⟨newEvents, rfl⟩

theorem mem_pending_handleEvents (eventsByType : Store) (method : String)
    (decoded : Except String (List Event)) (t : String) (e : Event)
    (he : e ∈ pending (handleEvents eventsByType method decoded).1 t) :
    e ∈ pending eventsByType t ∨ eventTypeOf e = some t := by
  rcases handleEvents_store_cases eventsByType method decoded with h | ⟨newEvents, h⟩
  · rw [h] at he
    exact Or.inl he
  · rw [h, (foldl_ingest newEvents (eventsByType, [])).1 t, List.mem_append,
      List.mem_filter] at he
    rcases he with he | ⟨-, he⟩
    · exact Or.inl he
    · exact Or.inr (by simpa using he)

theorem pending_saveCSV_cases (o : MapOrder) (csv : CsvCodec) (eventsByType : Store)
    (fs : FileSystem) (t : String) :
    pending (saveCSV o csv eventsByType fs).eventsByType t = pending eventsByType t ∨
      pending (saveCSV o csv eventsByType fs).eventsByType t = [] := by
  by_cases hlen : GoMap.len eventsByType = 0
  · left
    simp [saveCSV, hlen]
  · cases hmk : fs.denyMkdir csvDir with
    | true =>
      left
      simp [saveCSV, hlen, FileSystem.mkdirAll, hmk]
    | false =>
      rw [(saveCSV_eq_of_mkdir o csv eventsByType fs hlen hmk).1]
      exact (foldl_exportType_frame o csv _ _).1 t

theorem typedStore_applyOp (eventsByType : Store) (op : Op) (h : typedStore eventsByType) :
    typedStore (applyOp eventsByType op) := by
  intro t e he
  cases op with
  | request method decoded =>
    rcases mem_pending_handleEvents eventsByType method decoded t e he with h' | h'
    · exact h t e h'
    · exact h'
  | saveCsv o csv fs =>
    simp only [applyOp] at he
    rcases pending_saveCSV_cases o csv eventsByType fs t with h' | h'
    · rw [h'] at he
      exact h t e he
    · rw [h'] at he
      simp at he

theorem typedStore_foldl (ops : List Op) (eventsByType : Store)
    (h : typedStore eventsByType) : typedStore (ops.foldl applyOp eventsByType) := by
  induction ops generalizing eventsByType with
  | nil => exact h
  | cons op ops ih => exact ih _ (typedStore_applyOp eventsByType op h)

theorem typedStore_runOps (ops : List Op) : typedStore (runOps ops) :=
  typedStore_foldl ops [] (fun _ _ he => by simp [pending, GoMap.get?] at he)

theorem freshCell_eventType (e : Event) (t : String) (h : eventTypeOf e = some t) :
    freshCell e "eventType" = t := by
  rw [eventTypeOf_eq_some] at h
  simp [freshCell, h, fmtV]

/-- C17: in the store after any sequence of requests and exports from the empty
store, every pending event of a type has the field `eventType` holding the
name of the type as a string; so the header of the export of a non-empty batch
has the column `eventType`, and the row of every pending event holds the name
of its type in each column of that name. -/
theorem store_events_carry_their_type (ops : List Op) (t : String) :
    (∀ e ∈ pending (runOps ops) t, GoMap.get? e "eventType" = some (.str t)) ∧
      (pending (runOps ops) t ≠ [] →
        ∀ (o : MapOrder) (H : List String),
          "eventType" ∈ reconcile o H (pending (runOps ops) t)) ∧
      (∀ (o : MapOrder) (H : List String), ∀ e ∈ pending (runOps ops) t, ∀ i : Nat,
        (reconcile o H (pending (runOps ops) t))[i]? = some "eventType" →
          (eventRow (.fresh e) (reconcile o H (pending (runOps ops) t)))[i]? = some t) := by
  have hinv := typedStore_runOps ops
  refine ⟨?_, ?_, ?_⟩
  · intro e he
    exact (eventTypeOf_eq_some e t).mp (hinv t e he)
  · intro hne o H
    obtain ⟨added, heq, -, hmem⟩ :=
      mergeHeaders_spec (getHeaders o (pending (runOps ops) t)) H
    unfold reconcile
    rw [heq, List.mem_append]
    by_cases hH : "eventType" ∈ H
    · exact Or.inl hH
    · right
      rw [hmem, mem_getHeaders]
      refine ⟨?_, hH⟩
      cases hp : pending (runOps ops) t with
      | nil => exact absurd hp hne
      | cons e rest =>
        refine ⟨e, List.mem_cons_self e rest, ?_⟩
        have := (eventTypeOf_eq_some e t).mp (hinv t e (by rw [hp]; exact List.mem_cons_self e rest))
        simp [this]
  · intro o H e he i hi
    rw [eventRow_fresh, List.getElem?_map, hi]
    simp [freshCell_eventType e t (hinv t e he)]

/-! ## Ingestion appends -/

/-- C18: after `handleEvents` the pending sequence of every type is the sequence
it had followed by the new events of that type, which come in the order of the
array; the sequence of a type that no new event names is as it was, and a
request that is refused leaves every sequence. -/
theorem handleEvents_append_only (eventsByType : Store) (newEvents : List Event)
    (t : String) :
    pending eventsByType t <+: pending (handleEvents eventsByType "POST" (.ok newEvents)).1 t ∧
      pending (handleEvents eventsByType "POST" (.ok newEvents)).1 t
        = pending eventsByType t ++ newEvents.filter (fun e => eventTypeOf e = some t) ∧
      (newEvents.filter (fun e => eventTypeOf e = some t)).Sublist newEvents ∧
      ((∀ e ∈ newEvents, eventTypeOf e ≠ some t) →
        pending (handleEvents eventsByType "POST" (.ok newEvents)).1 t
          = pending eventsByType t) ∧
      (∀ (method : String) (decoded : Except String (List Event)),
        pending eventsByType t <+: pending (handleEvents eventsByType method decoded).1 t) := by
  have hfold : ∀ evs : List Event, pending (evs.foldl ingest (eventsByType, [])).1 t
      = pending eventsByType t ++ evs.filter (fun e => eventTypeOf e = some t) :=
    fun evs => (foldl_ingest evs (eventsByType, [])).1 t
  have hpost : pending (handleEvents eventsByType "POST" (.ok newEvents)).1 t
      = pending eventsByType t ++ newEvents.filter (fun e => eventTypeOf e = some t) := by
    simpa [handleEvents] using hfold newEvents
  refine ⟨⟨_, hpost.symm⟩, hpost, List.filter_sublist _, ?_, ?_⟩
  · intro hnone
    rw [hpost]
    have : newEvents.filter (fun e => eventTypeOf e = some t) = [] := by
      rw [List.filter_eq_nil_iff]
      intro e he
      simpa using hnone e he
    rw [this, List.append_nil]
  · intro method decoded
    rcases handleEvents_store_cases eventsByType method decoded with h | ⟨evs, h⟩
    · rw [h]
    · rw [h, hfold evs]
      exact List.prefix_append _ _

end EventCollector
